import Mathlib

/-!
Verification of the document-link resolver in `app/static/js/url-decoder.js`
(and the backend-proxied variant in the dynamic-container module).

The JavaScript is shallowly embedded: JS strings are modelled as Lean
`String`s (sequences of Unicode scalar values; the UTF-16 code-unit view of
JS only differs on astral characters and lone surrogates, which none of the
statements below exercise), the binary strings produced by `atob` are
modelled as strings of scalar values < 256, and the throwing platform
primitives (`atob`, `decodeURIComponent`) are modelled in `Except`, with
every `try`/`catch` of the source translated to a `match` on the `Except`
value.
-/

set_option maxRecDepth 20000

namespace UrlDecoder

/-! ### Character classes (ASCII / JS semantics) -/

/-- ASCII lowercasing of one character.  This is the canonicalization the
`/i` regex flag (without the `u` flag) performs on the ASCII pattern
characters used here: in non-Unicode mode a non-ASCII character is never
canonicalized to an ASCII one, so mapping non-ASCII characters to
themselves is exact for those patterns. -/
def lowerC (c : Char) : Char :=
  if 'A' ≤ c ∧ c ≤ 'Z' then Char.ofNat (c.toNat + 32) else c

/-- Character-wise ASCII lowercasing, used to state case-insensitivity of
ASCII patterns (it is not the model of `toLowerCase` — see `jsToLower`). -/
def asciiLower (l : List Char) : List Char := l.map lowerC

/-- The lowercase image of one character under JS
`String.prototype.toLowerCase` (default Unicode case conversion): the
ASCII map, extended with the one default mapping that changes the length,
U+0130 → "i" + U+0307.  Every other character lowercases
length-preservingly, and no non-ASCII character lowercases to any
character of ".pdf" (the only non-ASCII character with an ASCII lowercase
image is U+212A → "k"), so mapping the rest identically is observationally
equivalent for locating ".pdf" in the lowercased string. -/
def lowerChar (c : Char) : List Char :=
  if c = Char.ofNat 0x130 then ['i', Char.ofNat 0x307] else [lowerC c]

/-- JS `toLowerCase`, as used by the `.pdf` truncation step. -/
def jsToLower (l : List Char) : List Char :=
  match l with
  | [] => []
  | c :: r => lowerChar c ++ jsToLower r

/-- Line terminators, which `.` in a JS regex does not match. -/
def isLineTerm (c : Char) : Bool :=
  c == '\n' || c == '\r' || c == Char.ofNat 0x2028 || c == Char.ofNat 0x2029

/-- The WhiteSpace ∪ LineTerminator set trimmed by JS `String.prototype.trim`. -/
def isJsWs (c : Char) : Bool :=
  let n := c.toNat
  (9 ≤ n && n ≤ 13) || n == 32 || n == 0xa0 || n == 0x1680 ||
  (0x2000 ≤ n && n ≤ 0x200a) || n == 0x2028 || n == 0x2029 ||
  n == 0x202f || n == 0x205f || n == 0x3000 || n == 0xfeff

/-- The ASCII whitespace removed by the WHATWG forgiving-base64 decoder
(`atob`): TAB, LF, FF, CR, SPACE. -/
def isAsciiWs (c : Char) : Bool :=
  c.toNat == 9 || c.toNat == 10 || c.toNat == 12 || c.toNat == 13 || c.toNat == 32

/-! ### List-of-characters utilities mirroring JS string primitives -/

/-- Concat-map, used to build strings character-group-wise. -/
def cmapL (f : α → List β) : List α → List β
  | [] => []
  | a :: r => f a ++ cmapL f r

/-- `pfxAt pat l`: `l` starts with `pat` (exact characters). -/
def pfxAt : List Char → List Char → Bool
  | [], _ => true
  | _ :: _, [] => false
  | p :: ps, c :: cs => p == c && pfxAt ps cs

/-- JS `String.prototype.includes`. -/
def occursIn (pat : List Char) : List Char → Bool
  | [] => pfxAt pat []
  | c :: r => pfxAt pat (c :: r) || occursIn pat r

/-- JS `String.prototype.indexOf` (`none` for -1). -/
def firstIdxOf (pat : List Char) : List Char → Option Nat
  | [] => if pfxAt pat [] then some 0 else none
  | c :: r => if pfxAt pat (c :: r) then some 0 else (firstIdxOf pat r).map (· + 1)

/-- Case-insensitive literal prefix match (pattern given in lowercase);
returns the rest of the list after the matched prefix. -/
def ciPfx : List Char → List Char → Option (List Char)
  | [], l => some l
  | _ :: _, [] => none
  | p :: ps, c :: cs => if lowerC c == p then ciPfx ps cs else none

/-- JS `String.prototype.trim`. -/
def trimL (l : List Char) : List Char :=
  ((l.dropWhile isJsWs).reverse.dropWhile isJsWs).reverse

def trimJS (s : String) : String := String.mk (trimL s.data)

/-! ### Base64 (WHATWG forgiving decode, as implemented by `atob`) -/

def b64Alphabet : List Char :=
  "ABCDEFGHIJKLMNOPQRSTUVWXYZabcdefghijklmnopqrstuvwxyz0123456789+/".data

/-- The character class `[A-Za-z0-9+/=]` of the trailing-garbage strip. -/
def isB64Keep (c : Char) : Bool := b64Alphabet.contains c || c == '='

/-- `input.replace(/[^A-Za-z0-9+\/=]+$/, '')`: drop the maximal trailing run
of characters outside the base64 alphabet. -/
def stripTrailingNonB64 (l : List Char) : List Char :=
  (l.reverse.dropWhile (fun c => !isB64Keep c)).reverse

/-- `cleanInput + '='.repeat((4 - cleanInput.length % 4) % 4)`. -/
def padB64 (l : List Char) : List Char :=
  l ++ List.replicate ((4 - l.length % 4) % 4) '='

def idxInL (c : Char) : List Char → Option Nat
  | [] => none
  | a :: r => if a == c then some 0 else (idxInL c r).map (· + 1)

def b64Val (c : Char) : Option Nat := idxInL c b64Alphabet

def b64CharOf (n : Nat) : Char := b64Alphabet.getD n 'A'

/-- Map every character to its 6-bit value, failing on any character
outside the base64 alphabet. -/
def b64ValsOf : List Char → Option (List Nat)
  | [] => some []
  | c :: r =>
    match b64Val c, b64ValsOf r with
    | some v, some vs => some (v :: vs)
    | _, _ => none

/-- Repack 6-bit values into bytes; a leftover of 2 values yields 1 byte and
a leftover of 3 values yields 2 bytes (trailing bits discarded), as in the
forgiving decode. -/
def decodeQuads : List Nat → List Nat
  | v1 :: v2 :: v3 :: v4 :: rest =>
    (v1 * 4 + v2 / 16) :: ((v2 % 16) * 16 + v3 / 4) :: ((v3 % 4) * 64 + v4) :: decodeQuads rest
  | [v1, v2] => [v1 * 4 + v2 / 16]
  | [v1, v2, v3] => [v1 * 4 + v2 / 16, (v2 % 16) * 16 + v3 / 4]
  | _ => []

/-- If the length is a multiple of 4, remove up to two trailing `=`. -/
def stripPadEq (l : List Char) : List Char :=
  if l.length % 4 == 0 then
    let l1 := if l.getLast? == some '=' then l.dropLast else l
    if l1.getLast? == some '=' then l1.dropLast else l1
  else l

/-- `atob` (WHATWG forgiving-base64 decode); the result is the byte string
as characters of code < 256. -/
def atobL (l : List Char) : Except String (List Char) :=
  let d := stripPadEq (l.filter (fun c => !isAsciiWs c))
  if d.length % 4 == 1 then .error "InvalidCharacterError"
  else
    match b64ValsOf d with
    | none => .error "InvalidCharacterError"
    | some vs => .ok ((decodeQuads vs).map Char.ofNat)

/-- 6-bit values of a byte sequence (standard base64, most-significant
first), without padding characters. -/
def b64ValsEnc : List Nat → List Nat
  | a :: b :: c :: rest =>
    (a / 4) :: ((a % 4) * 16 + b / 16) :: ((b % 16) * 4 + c / 64) :: (c % 64) :: b64ValsEnc rest
  | [a, b] => [a / 4, (a % 4) * 16 + b / 16, (b % 16) * 4]
  | [a] => [a / 4, (a % 4) * 16]
  | [] => []

def b64PadEnc (n : Nat) : List Char :=
  match n % 3 with
  | 1 => ['=', '=']
  | 2 => ['=']
  | _ => []

/-- Standard (RFC 4648) base64 encoding of a byte sequence, with padding —
the encoding produced by `btoa`. -/
def base64EncodeBytes (bs : List Nat) : List Char :=
  (b64ValsEnc bs).map b64CharOf ++ b64PadEnc bs.length

/-! ### `escape` and `decodeURIComponent` (ECMA-262) -/

/-- The unescaped set of `escape` (ECMA-262 B.2.1). -/
def isEscSafe (c : Char) : Bool :=
  ('A' ≤ c && c ≤ 'Z') || ('a' ≤ c && c ≤ 'z') || ('0' ≤ c && c ≤ '9') ||
  c == '@' || c == '*' || c == '_' || c == '+' || c == '-' || c == '.' || c == '/'

def hexDigitUpper (n : Nat) : Char := "0123456789ABCDEF".data.getD n '0'

def hexDigitLower (n : Nat) : Char := "0123456789abcdef".data.getD n '0'

def hex4Upper (n : Nat) : List Char :=
  [hexDigitUpper (n / 4096 % 16), hexDigitUpper (n / 256 % 16),
   hexDigitUpper (n / 16 % 16), hexDigitUpper (n % 16)]

/-- One character of `escape` output. For scalar values above 0xFFFF real JS
emits two `%uXXXX` surrogate escapes where this model emits a single `%u`
escape; both forms make `decodeURIComponent` throw, so the composition used
by the source behaves identically. -/
def escChar (c : Char) : List Char :=
  if isEscSafe c then [c]
  else if c.toNat < 256 then ['%', hexDigitUpper (c.toNat / 16), hexDigitUpper (c.toNat % 16)]
  else '%' :: 'u' :: hex4Upper c.toNat

def escapeJs (s : String) : String := String.mk (cmapL escChar s.data)

def hexVal (c : Char) : Option Nat :=
  if '0' ≤ c && c ≤ '9' then some (c.toNat - 48)
  else if 'A' ≤ c && c ≤ 'F' then some (c.toNat - 55)
  else if 'a' ≤ c && c ≤ 'f' then some (c.toNat - 87)
  else none

/-- Lower bound for the first continuation byte of a multi-byte UTF-8
sequence with the given lead byte. -/
def u8c1lo (b : Nat) : Nat := if b == 0xe0 then 0xa0 else if b == 0xf0 then 0x90 else 0x80

/-- Upper bound for the first continuation byte. -/
def u8c1hi (b : Nat) : Nat := if b == 0xed then 0x9f else if b == 0xf4 then 0x8f else 0xbf

/-- Two hex digits at the head of the list: their byte value and the rest. -/
def hex2 : List Char → Option (Nat × List Char)
  | h1 :: h2 :: rest =>
    (match hexVal h1, hexVal h2 with
     | some a, some b => some (a * 16 + b, rest)
     | _, _ => none)
  | _ => none

/-- A literal `%` followed by two hex digits (the only form a continuation
octet may take in `decodeURIComponent`). -/
def pctHex2 : List Char → Option (Nat × List Char)
  | [] => none
  | c :: rest => if c = '%' then hex2 rest else none

/-- Decode one percent-escaped UTF-8 sequence, starting right after its
leading `%`: a single byte < 0x80, or a strict multi-byte sequence whose
continuation octets are themselves `%`-escaped and range-checked (overlong
encodings, surrogates and out-of-range lead bytes are rejected, as in
ECMA-262). -/
def pctParse (rest : List Char) : Except String (Char × List Char) :=
  match hex2 rest with
  | none => .error "URIError"
  | some (b, rest1) =>
    if b < 0x80 then .ok (Char.ofNat b, rest1)
    else if 0xc2 ≤ b && b ≤ 0xdf then
      match pctHex2 rest1 with
      | some (c1, rest2) =>
        if 0x80 ≤ c1 && c1 ≤ 0xbf then
          .ok (Char.ofNat ((b - 0xc0) * 64 + (c1 - 0x80)), rest2)
        else .error "URIError"
      | none => .error "URIError"
    else if 0xe0 ≤ b && b ≤ 0xef then
      match pctHex2 rest1 with
      | some (c1, rest2) =>
        match pctHex2 rest2 with
        | some (c2, rest3) =>
          if u8c1lo b ≤ c1 && c1 ≤ u8c1hi b && 0x80 ≤ c2 && c2 ≤ 0xbf then
            .ok (Char.ofNat ((b - 0xe0) * 4096 + (c1 - 0x80) * 64 + (c2 - 0x80)), rest3)
          else .error "URIError"
        | none => .error "URIError"
      | none => .error "URIError"
    else if 0xf0 ≤ b && b ≤ 0xf4 then
      match pctHex2 rest1 with
      | some (c1, rest2) =>
        match pctHex2 rest2 with
        | some (c2, rest3) =>
          match pctHex2 rest3 with
          | some (c3, rest4) =>
            if u8c1lo b ≤ c1 && c1 ≤ u8c1hi b && 0x80 ≤ c2 && c2 ≤ 0xbf &&
               0x80 ≤ c3 && c3 ≤ 0xbf then
              .ok (Char.ofNat ((b - 0xf0) * 262144 + (c1 - 0x80) * 4096 +
                               (c2 - 0x80) * 64 + (c3 - 0x80)), rest4)
            else .error "URIError"
          | none => .error "URIError"
        | none => .error "URIError"
      | none => .error "URIError"
    else .error "URIError"

/-- `decodeURIComponent`: percent-escapes are decoded as strict UTF-8 via
`pctParse`, all other characters are copied through.  Every step consumes
at least one character, so the fuel argument (instantiated with the input
length by `decodeURIComponentL`) is never exhausted and only serves to make
the recursion structural. -/
def uriGo : Nat → List Char → Except String (List Char)
  | 0, l => if l = [] then .ok [] else .error "URIError"
  | fuel + 1, l =>
    match l with
    | [] => .ok []
    | c :: rest =>
      if c = '%' then
        match pctParse rest with
        | .ok (d, rest2) => (d :: ·) <$> uriGo fuel rest2
        | .error e => .error e
      else (c :: ·) <$> uriGo fuel rest

def decodeURIComponentL (l : List Char) : Except String (List Char) := uriGo l.length l

/-! ### UTF-8 encoding (used to state the round-trip law) -/

def utf8EncodeChar (c : Char) : List Nat :=
  if c.toNat < 0x80 then [c.toNat]
  else if c.toNat < 0x800 then [0xc0 + c.toNat / 64, 0x80 + c.toNat % 64]
  else if c.toNat < 0x10000 then
    [0xe0 + c.toNat / 4096, 0x80 + (c.toNat / 64) % 64, 0x80 + c.toNat % 64]
  else
    [0xf0 + c.toNat / 262144, 0x80 + (c.toNat / 4096) % 64,
     0x80 + (c.toNat / 64) % 64, 0x80 + c.toNat % 64]

def utf8Encode (s : String) : List Nat := cmapL utf8EncodeChar s.data

/-- A byte sequence viewed as a JS binary string (the type of `atob`
results). -/
def byteChars (bs : List Nat) : List Char := bs.map Char.ofNat

/-! ### `customBase64Decode` (url-decoder.js lines 16-46) -/

def urlSafeFix (c : Char) : Char := if c == '-' then '+' else if c == '_' then '/' else c

/-- `'%' + ('00' + c.charCodeAt(0).toString(16)).slice(-2)` applied to every
character (codes are < 256 here, so this is two lowercase hex digits). -/
def pctEncodeAll (l : List Char) : List Char :=
  cmapL (fun c => ['%', hexDigitLower (c.toNat / 16 % 16), hexDigitLower (c.toNat % 16)]) l

lemma stripTrailingNonB64_length_le (l : List Char) :
    (stripTrailingNonB64 l).length ≤ l.length := by
  have h : (l.reverse.dropWhile (fun c => !isB64Keep c)).length ≤ l.reverse.length :=
    (List.dropWhile_sublist _).length_le
  simpa [stripTrailingNonB64] using h

/-- The body of `customBase64Decode`: try `atob` on the padded cleaned
input; on failure try the URL-safe-alphabet fallback
(`decodeURIComponent` over a byte-wise percent-encoding of the `atob` of
the `-`/`_`-fixed input); on failure retry with the last character of the
cleaned input removed, or give up and return the input unchanged.

Each retry shortens the list, so the recursion is bounded by the input
length; the explicit `fuel` argument (instantiated with the input length by
`customBase64Decode`, and never exhausted — see `cbdGo_fuel_irrelevant`)
makes the recursion structural so that the kernel can evaluate it. -/
def cbdGo : Nat → List Char → List Char
  | 0, input => input
  | fuel + 1, input =>
    if input = [] then []
    else
      match atobL (padB64 (stripTrailingNonB64 input)) with
      | .ok r => r
      | .error _ =>
        match (match atobL ((padB64 (stripTrailingNonB64 input)).map urlSafeFix) with
               | .ok bytes => decodeURIComponentL (pctEncodeAll bytes)
               | .error e => .error e) with
        | .ok r => r
        | .error _ =>
          if 1 < (stripTrailingNonB64 input).length then
            cbdGo fuel ((stripTrailingNonB64 input).dropLast)
          else input

def cbdCore (input : List Char) : List Char := cbdGo input.length input

def customBase64Decode (input : String) : String := String.mk (cbdCore input.data)

/-- Both decode attempts fail at this level and (when a retry happens) at
every deeper retry — the hypothesis under which the terminal fallback of
`customBase64Decode` is reached. -/
def cbdAllFailGo : Nat → List Char → Bool
  | 0, _ => false
  | fuel + 1, input =>
    if input = [] then false
    else
      match atobL (padB64 (stripTrailingNonB64 input)) with
      | .ok _ => false
      | .error _ =>
        match (match atobL ((padB64 (stripTrailingNonB64 input)).map urlSafeFix) with
               | .ok bytes => decodeURIComponentL (pctEncodeAll bytes)
               | .error e => .error e) with
        | .ok _ => false
        | .error _ =>
          if 1 < (stripTrailingNonB64 input).length then
            cbdAllFailGo fuel ((stripTrailingNonB64 input).dropLast)
          else true

def cbdAllFail (input : List Char) : Bool := cbdAllFailGo input.length input

/-- The value actually returned when every decode attempt fails: the input
of the deepest retry (the cleaned input truncated until at most one
character of cleaned content remains). -/
def cbdDeepFallbackGo : Nat → List Char → List Char
  | 0, input => input
  | fuel + 1, input =>
    if input = [] then input
    else if 1 < (stripTrailingNonB64 input).length then
      cbdDeepFallbackGo fuel ((stripTrailingNonB64 input).dropLast)
    else input

def cbdDeepFallback (input : List Char) : List Char := cbdDeepFallbackGo input.length input

/-! ### `sanitizeSasToken` (url-decoder.js lines 49-71)

The HTML decoding performed via the `textarea.innerHTML` round trip is a
browser primitive; it is modelled here by `decodeEntitiesL` (RCDATA
parsing): standard numeric character references, the named references
relevant to tokens in this codebase, and the appropriate `</textarea>` end
tag that terminates the RCDATA text.  HTML legacy quirks (semicolon-less
named references, windows-1252 remapping of C1 numeric references) are not
exercised by any statement below. -/

def isDigitC (c : Char) : Bool := '0' ≤ c && c ≤ '9'

/-- Numeric character reference to character: invalid scalar values become
U+FFFD, as in the HTML parser. -/
def htmlRefToChar (n : Nat) : Char :=
  if n = 0 then Char.ofNat 0xfffd
  else if n.isValidChar then Char.ofNat n
  else Char.ofNat 0xfffd

def parseDecRefDigits : List Char → Nat → Option (Nat × List Char)
  | [], _ => none
  | c :: r, acc =>
    if c == ';' then some (acc, r)
    else if isDigitC c then parseDecRefDigits r (acc * 10 + (c.toNat - 48)) else none

def parseHexRefDigits : List Char → Nat → Option (Nat × List Char)
  | [], _ => none
  | c :: r, acc =>
    if c == ';' then some (acc, r)
    else
      match hexVal c with
      | some v => parseHexRefDigits r (acc * 16 + v)
      | none => none

def namedEnts : List (List Char × Char) :=
  [("amp;".data, '&'), ("lt;".data, '<'), ("gt;".data, '>'),
   ("quot;".data, '"'), ("apos;".data, Char.ofNat 39), ("nbsp;".data, Char.ofNat 0xa0)]

def tryNamed : List (List Char × Char) → List Char → Option (Char × List Char)
  | [], _ => none
  | (pat, ch) :: tbl, l =>
    if pfxAt pat l then some (ch, l.drop pat.length) else tryNamed tbl l

/-- Try to read one character reference right after a `&`. -/
def decodeEntityAt (l : List Char) : Option (Char × List Char) :=
  match l with
  | '#' :: c :: rest2 =>
    if c == 'x' || c == 'X' then
      match rest2 with
      | d :: _ =>
        if (hexVal d).isSome then (parseHexRefDigits rest2 0).map (fun p => (htmlRefToChar p.1, p.2))
        else none
      | [] => none
    else if isDigitC c then
      (parseDecRefDigits (c :: rest2) 0).map (fun p => (htmlRefToChar p.1, p.2))
    else none
  | _ => tryNamed namedEnts l

lemma pfxAt_length {pat l : List Char} (h : pfxAt pat l = true) : pat.length ≤ l.length := by
  induction pat generalizing l with
  | nil => simp
  | cons p ps ih =>
    cases l with
    | nil => simp [pfxAt] at h
    | cons c cs =>
      simp only [pfxAt, Bool.and_eq_true] at h
      simpa using ih h.2

lemma tryNamed_length {tbl : List (List Char × Char)} {l : List Char} {c : Char}
    {rest : List Char} (hne : ∀ e ∈ tbl, 0 < e.1.length)
    (h : tryNamed tbl l = some (c, rest)) : rest.length < l.length := by
  induction tbl with
  | nil => simp [tryNamed] at h
  | cons e tbl ih =>
    obtain ⟨pat, ch⟩ := e
    simp only [tryNamed] at h
    split at h
    · rename_i hpfx
      obtain ⟨rfl, rfl⟩ : ch = c ∧ l.drop pat.length = rest := by
        cases h; exact ⟨rfl, rfl⟩
      have h1 := pfxAt_length hpfx
      have h2 : 0 < pat.length := hne (pat, ch) (by simp)
      simp only [List.length_drop]
      omega
    · exact ih (fun e he => hne e (by simp [he])) h

lemma parseDecRefDigits_length {l : List Char} {acc n : Nat} {rest : List Char}
    (h : parseDecRefDigits l acc = some (n, rest)) : rest.length < l.length := by
  induction l generalizing acc with
  | nil => simp [parseDecRefDigits] at h
  | cons c r ih =>
    simp only [parseDecRefDigits] at h
    split at h
    · cases h; simp
    · split at h
      · have := ih h; simpa using Nat.lt_succ_of_lt this
      · simp at h

lemma parseHexRefDigits_length {l : List Char} {acc n : Nat} {rest : List Char}
    (h : parseHexRefDigits l acc = some (n, rest)) : rest.length < l.length := by
  induction l generalizing acc with
  | nil => simp [parseHexRefDigits] at h
  | cons c r ih =>
    simp only [parseHexRefDigits] at h
    split at h
    · cases h; simp
    · split at h
      · have := ih h; simpa using Nat.lt_succ_of_lt this
      · simp at h

lemma decodeEntityAt_length {l : List Char} {c : Char} {rest : List Char}
    (h : decodeEntityAt l = some (c, rest)) : rest.length ≤ l.length := by
  unfold decodeEntityAt at h
  split at h
  · rename_i c0 rest2 heq
    split at h
    · split at h
      · rename_i d rest3 heq2
        split at h
        · simp only [Option.map_eq_some'] at h
          obtain ⟨⟨n, r⟩, hp, he⟩ := h
          have := parseHexRefDigits_length hp
          cases he
          simp_all
          omega
        · simp at h
      · simp at h
    · split at h
      · simp only [Option.map_eq_some'] at h
        obtain ⟨⟨n, r⟩, hp, he⟩ := h
        have := parseDecRefDigits_length hp
        cases he
        simp_all
        omega
      · simp at h
  · have := tryNamed_length (show ∀ e ∈ namedEnts, 0 < e.1.length by decide) h
    omega

/-- Whitespace accepted by the tokenizer after a tag name (tab, LF, FF,
CR, space). -/
def rcdataWs (c : Char) : Bool :=
  c.toNat == 9 || c.toNat == 10 || c.toNat == 12 || c.toNat == 13 || c.toNat == 32

/-- Skip the attribute section of a tag up to and past the closing `>`;
`none` when the input ends inside the tag (EOF in a tag emits nothing). -/
def dropThroughGt : List Char → Option (List Char)
  | [] => none
  | c :: r => if c = '>' then some r else dropThroughGt r

/-- Recognize an appropriate RCDATA end tag right after a `<`: a `/`, the
tag name `textarea` (ASCII case-insensitive), and then either `>` directly
or whitespace/`/` followed by attribute junk up to a `>`.  Returns the
input after the tag.  Any other continuation (including a longer name such
as `textareas`, or EOF inside the tag) is not an end tag and the `<` is
emitted as text. -/
def rcdataEndTag (l : List Char) : Option (List Char) :=
  match l with
  | [] => none
  | c :: rest =>
    if c = '/' then
      match ciPfx "textarea".data rest with
      | some rest2 =>
        match rest2 with
        | [] => none
        | d :: rest3 =>
          if d = '>' then some rest3
          else if rcdataWs d || d = '/' then dropThroughGt rest3
          else none
      | none => none
    else none

/-- The decoding performed by assigning to `textarea.innerHTML` and reading
back `value` (RCDATA parsing): character references are decoded, tags stay
text, except that a literal appropriate end tag `</textarea ...>` ends the
RCDATA text — the tag itself is dropped (the tree builder ignores the
unmatched end tag).  The remainder after such a tag is parsed in the data
state; it is modelled as continuing text collection with references
decoded, which is faithful when that remainder contains no further markup
(the only case any statement below evaluates).  A `&lt;` in the markup
decodes to a `<` character and does not end the text, because the end-tag
check runs on the raw markup.  Every step consumes at least one character,
so the fuel argument (instantiated with the input length) is never
exhausted and only serves to make the recursion structural. -/
def entGo : Nat → List Char → List Char
  | 0, l => l
  | fuel + 1, l =>
    match l with
    | [] => []
    | c :: r =>
      if c = '&' then
        match decodeEntityAt r with
        | some (d, rest) => d :: entGo fuel rest
        | none => c :: entGo fuel r
      else if c = '<' then
        match rcdataEndTag r with
        | some rest => entGo fuel rest
        | none => c :: entGo fuel r
      else c :: entGo fuel r

def decodeEntitiesL (l : List Char) : List Char := entGo l.length l

/-- `sanitizeSasToken`: trim, strip one layer of matching wrapping quotes,
decode HTML entities.  The `catch` branch of the source is unreachable in
the model (no step can raise), and the `textarea.value || textarea.textContent
|| t` chain reduces to the decoded value because the decoding of a nonempty
string is nonempty and `t` is itself empty whenever the decoded value is. -/
def sanitizeSasToken (token : String) : String :=
  if token = "" then ""
  else
    let t := trimL token.data
    let t2 :=
      if (t.head? == some '"' && t.getLast? == some '"') ||
         (t.head? == some (Char.ofNat 39) && t.getLast? == some (Char.ofNat 39)) then
        (t.drop 1).dropLast
      else t
    String.mk (decodeEntitiesL t2)

/-! ### `appendSasToken` (url-decoder.js lines 74-90) -/

/-- Append the SAS token: strip one leading `?` from the token, separate
with `&` when the url already contains `?`, else with `?`.  The `catch`
fallback of the source is unreachable in the model. -/
def appendSasToken (url sasToken : String) : String :=
  if sasToken = "" then url
  else
    let token := if sasToken.data.head? == some '?' then String.mk (sasToken.data.drop 1)
                 else sasToken
    let sep := if url.data.contains '?' then "&" else "?"
    url ++ sep ++ token

/-! ### The URL search pattern `/https?:\/\/.*?\.(pdf|txt|csv)(?:.*)?/i`

`String.prototype.match` returns the leftmost match.  At a candidate start
the pattern matches iff `https://` or `http://` matches case-insensitively
there and a `.pdf`/`.txt`/`.csv` occurrence (case-insensitive) is reachable
without crossing a line terminator; the whole match `m[0]` then extends
greedily to the end of the line. -/

def protoHttps : List Char := "https://".data
def protoHttp : List Char := "http://".data

def matchProtoAt (l : List Char) : Option (List Char) :=
  match ciPfx protoHttps l with
  | some r => some r
  | none => ciPfx protoHttp l

def extAt (l : List Char) : Bool :=
  (ciPfx ".pdf".data l).isSome || (ciPfx ".txt".data l).isSome || (ciPfx ".csv".data l).isSome

def findExt : List Char → Bool
  | [] => extAt []
  | c :: r => extAt (c :: r) || (!isLineTerm c && findExt r)

def takeLine (l : List Char) : List Char := l.takeWhile (fun c => !isLineTerm c)

def attemptAt (l : List Char) : Bool :=
  match matchProtoAt l with
  | some rest => findExt rest
  | none => false

/-- Leftmost match of the URL regex: `m[0]` of `decoded.match(...)`. -/
def scanUrl : List Char → Option (List Char)
  | [] => none
  | c :: r => if attemptAt (c :: r) then some (takeLine (c :: r)) else scanUrl r

/-! ### `decodeAndCleanUrl` (url-decoder.js lines 98-180) -/

/-- The hardcoded known-problematic base64 literal (line 106). -/
def specialB64 : String :=
  "aHR0cHM6Ly9jYXBvenpvbDAyc3RvcmFnZS5ibG9iLmNvcmUud2luZG93cy5uZXQvYmlnb2xwb3RvZmRhdGVyL2ZpZWxkcG9ydGFsL2ZwMS9HYXMlMjBDaHJvbWF0b2dyYXBoeSUyMChQTCUyMEFaKS9Qcm9jZWR1cmUvR0MlMjBUcm91Ymxlc2hvb3RpbmclMjBHdWlkZSUyMC0lMjBGSUQucGRm0"

/-- Its hardcoded decoded URL (lines 108-109). -/
def specialUrl : String :=
  "https://capozzol02storage.blob.core.windows.net/bigolpotofdater/fieldportal/fp1/Gas%20Chromatography%20(PL%20AZ)/Procedure/GC%20Troubleshooting%20Guide%20-%20FID.pdf"

structure DecodeResult where
  raw : Option String
  cleaned : Option String
deriving Repr, DecidableEq

/-- `decodeAndCleanUrl`.  The `try` around the custom decode cannot raise in
the model (`customBase64Decode` is total), so the catch that would fall back
to `b64.trim()` is dead; the URI-decoding `try`/`catch` is the `match` on
`decodeURIComponentL`. -/
def decodeAndCleanUrl (b64 : String) : DecodeResult :=
  if b64 = "" then ⟨none, none⟩
  else if b64 = specialB64 then ⟨some specialUrl, some specialUrl⟩
  else
    let raw0 := customBase64Decode (trimJS b64)
    let raw :=
      if !occursIn "http".data raw0.data && 1 < b64.length then
        let retry := customBase64Decode (String.mk (trimL b64.data).dropLast)
        if occursIn "http".data retry.data then retry else raw0
      else raw0
    let decoded :=
      match decodeURIComponentL (escapeJs raw).data with
      | .ok d => String.mk d
      | .error _ => raw
    let cleaned :=
      match scanUrl decoded.data with
      | none => none
      | some m =>
        match firstIdxOf ".pdf".data (jsToLower m) with
        | some i => some (String.mk (m.take (i + 4)))
        | none => some (String.mk m)
    ⟨some raw, cleaned⟩

/-! ### `createDownloadLink` (url-decoder.js lines 188-278)

The HTML template literals are transcribed exactly, with each `${...}`
splice replaced by string concatenation. -/

structure LinkResult where
  html : String
  success : Bool
  error : Option String
deriving Repr, DecidableEq

/-- Template of the "No Base64 URL provided" branch (lines 191-195). -/
def cdlNoInputHtml : String :=
  "\n            <div class=\"mt-4 p-3 bg-red-50 border border-red-200 rounded text-sm text-red-600\">\n              <p><strong>Error:</strong> No Base64 URL provided.</p>\n            </div>\n          "

/-- Template of the could-not-extract branch (lines 214-220), with the
`showDetails` conditional splices; `showDetails && raw` is JS truthiness, so
the raw-decoded line is omitted when `raw` is null or empty. -/
def cdlNoUrlHtml (base64Url : String) (showDetails : Bool) (raw : Option String) : String :=
  "\n              <div class=\"mt-4 p-3 bg-yellow-50 border border-yellow-200 rounded text-sm text-yellow-800\">\n                <p><strong>Note:</strong> Could not extract a valid PDF URL from the Base64 string.</p>\n                " ++
  (if showDetails then
    "<p class=\"mt-2\"><strong>Base64 Input:</strong> <code class=\"text-xs bg-gray-100 p-1 rounded break-all\">" ++ base64Url ++ "</code></p>"
   else "") ++
  "\n                " ++
  (match raw with
   | some r =>
     if showDetails && !(r == "") then
       "<p class=\"mt-2\"><strong>Raw Decoded:</strong> <code class=\"text-xs bg-gray-100 p-1 rounded break-all\">" ++ r ++ "</code></p>"
     else ""
   | none => "") ++
  "\n              </div>\n            "

/-- Template of the success branch (lines 242-259); `raw || '(failed)'`
substitutes `(failed)` for a null or empty raw decode. -/
def cdlSuccessHtml (base64Url : String) (showDetails : Bool) (raw : Option String)
    (cleaned downloadLink : String) : String :=
  "\n            <div class=\"mt-4 p-3 bg-green-50 border border-green-200 rounded text-sm\">\n              <h4 class=\"font-medium text-green-800 mb-2\">Source Document Available</h4>\n              " ++
  (if showDetails then
    "\n                <p class=\"mb-2\"><strong>Base64 Input:</strong> <code class=\"text-xs bg-gray-100 p-1 rounded break-all\">" ++ base64Url ++ "</code></p>\n                <p class=\"mb-2\"><strong>Raw Decoded:</strong> <code class=\"text-xs bg-gray-100 p-1 rounded break-all\">" ++
    (match raw with
     | some r => if r == "" then "(failed)" else r
     | none => "(failed)") ++
    "</code></p>\n                <p class=\"mb-2\"><strong>Cleaned URL:</strong> <code class=\"text-xs bg-green-100 text-green-800 p-1 rounded break-all\">" ++ cleaned ++ "</code></p>\n              "
   else "") ++
  "\n              <div class=\"mt-3\">\n                <a href=\"" ++ downloadLink ++
  "\" target=\"_blank\" class=\"inline-block bg-green-600 text-white font-semibold py-2 px-4 rounded-md hover:bg-green-700 transition text-sm download-source-link\" data-dl-url=\"" ++ downloadLink ++
  "\">\n                  <svg xmlns=\"http://www.w3.org/2000/svg\" class=\"h-4 w-4 inline-block mr-1\" fill=\"none\" viewBox=\"0 0 24 24\" stroke=\"currentColor\">\n                    <path stroke-linecap=\"round\" stroke-linejoin=\"round\" stroke-width=\"2\" d=\"M4 16v1a3 3 0 003 3h10a3 3 0 003-3v-1m-4-4l-4 4m0 0l-4-4m4 4V4\" />\n                  </svg>\n                  Download Source Document\n                </a>\n              </div>\n            </div>\n          "

/-- `createDownloadLink(base64Url, showDetails)`.  The process-wide
`window.APP_CONFIG.sasToken` is the `appSasToken` argument (`none` models a
missing `APP_CONFIG`; `(APP_CONFIG && APP_CONFIG.sasToken) || ''` makes any
missing or empty configuration the empty token).  The whole pipeline of the
`try` block (lines 201-262) is total in the model — every platform
primitive that can raise is caught inside the callees — so the `catch`
(lines 263-277) that would convert an exception into a failure result is
unreachable and no exception can escape. -/
def createDownloadLink (base64Url : String) (showDetails : Bool)
    (appSasToken : Option String) : LinkResult :=
  if base64Url = "" then
    { html := cdlNoInputHtml, success := false, error := some "No Base64 URL provided" }
  else
    let r := decodeAndCleanUrl base64Url
    match r.cleaned with
    | none =>
      { html := cdlNoUrlHtml base64Url showDetails r.raw
        success := false
        error := some "Could not extract a valid PDF URL" }
    | some cleaned =>
      let sasToken := sanitizeSasToken (appSasToken.getD "")
      let downloadLink := appendSasToken cleaned sasToken
      { html := cdlSuccessHtml base64Url showDetails r.raw cleaned downloadLink
        success := true
        error := none }

/-! ### The backend-proxied variant (DynamicContainer, part_000 lines
687-726) -/

namespace DynamicContainer

def dcNoInputHtml : String :=
  "\n          <div class=\"mt-4 p-3 bg-red-50 border border-red-200 rounded text-sm text-red-600\">\n            <p><strong>Error:</strong> No Base64 URL provided.</p>\n          </div>\n        "

def dcSuccessHtml (viewLink downloadLink : String) : String :=
  "\n          <div class=\"mt-4 p-3 bg-green-50 border border-green-200 rounded text-sm\">\n            <h4 class=\"font-medium text-green-800 mb-2\">Source Document Available</h4>\n            <div class=\"mt-3 flex gap-2 flex-wrap\">\n                <a href=\"" ++ viewLink ++
  "\" target=\"_blank\" rel=\"noopener noreferrer\" class=\"inline-flex items-center bg-blue-600 text-white font-semibold py-2 px-4 rounded-md hover:bg-blue-700 transition text-sm cursor-pointer border-0 no-underline\">\n                  <svg xmlns=\"http://www.w3.org/2000/svg\" class=\"h-4 w-4 mr-1\" fill=\"none\" viewBox=\"0 0 24 24\" stroke=\"currentColor\">\n                    <path stroke-linecap=\"round\" stroke-linejoin=\"round\" stroke-width=\"2\" d=\"M15 12a3 3 0 11-6 0 3 3 0 016 0z\" />\n                    <path stroke-linecap=\"round\" stroke-linejoin=\"round\" stroke-width=\"2\" d=\"M2.458 12C3.732 7.943 7.523 5 12 5c4.478 0 8.268 2.943 9.542 7-1.274 4.057-5.064 7-9.542 7-4.477 0-8.268-2.943-9.542-7z\" />\n                  </svg>\n                  View Source\n                </a>\n                <a href=\"" ++ downloadLink ++
  "\" target=\"_blank\" class=\"inline-flex items-center bg-green-600 text-white font-semibold py-2 px-4 rounded-md hover:bg-green-700 transition text-sm download-source-link\" data-dl-url=\"" ++ downloadLink ++
  "\">\n                  <svg xmlns=\"http://www.w3.org/2000/svg\" class=\"h-4 w-4 mr-1\" fill=\"none\" viewBox=\"0 0 24 24\" stroke=\"currentColor\">\n                    <path stroke-linecap=\"round\" stroke-linejoin=\"round\" stroke-width=\"2\" d=\"M4 16v1a3 3 0 003 3h10a3 3 0 003-3v-1m-4-4l-4 4m0 0l-4-4m4 4V4\" />\n                  </svg>\n                  Download\n                </a>\n            </div>\n          </div>\n        "

/-- `DynamicContainer.createDownloadLink(base64Url)`: the backend-proxied
variant, which prefixes `/api/view/` and `/api/download/` and performs no
client-side resolution. -/
def createDownloadLink (base64Url : String) : LinkResult :=
  if base64Url = "" then
    { html := dcNoInputHtml, success := false, error := some "No Base64 URL provided" }
  else
    let downloadLink := "/api/download/" ++ base64Url
    let viewLink := "/api/view/" ++ base64Url
    { html := dcSuccessHtml viewLink downloadLink, success := true, error := none }

end DynamicContainer

/-- `l` ends with `pat` (exact characters). -/
def endsWithL (pat l : List Char) : Bool := pfxAt pat.reverse l.reverse

/-! ## Claims -/

/-! ### C8 — empty input handling -/

/-- C8: an empty (or null, which the falsiness check treats identically)
encoded reference makes `createDownloadLink` return `success:false` with
the defined error string "No Base64 URL provided" (and, being a total Lean
function, no exception); `decodeAndCleanUrl` on empty input returns
`{raw:null, cleaned:null}`. -/
theorem c8_empty_input (showDetails : Bool) (cfg : Option String) :
    (createDownloadLink "" showDetails cfg).success = false ∧
    (createDownloadLink "" showDetails cfg).error = some "No Base64 URL provided" ∧
    decodeAndCleanUrl "" = ⟨none, none⟩ :=
  ⟨rfl, rfl, rfl⟩

/-! ### C10 — raw is always present for non-empty input -/

/-- C10: for every non-empty input string, `decodeAndCleanUrl` returns a
non-null `raw` field. -/
theorem c10_raw_present (b64 : String) (h : b64 ≠ "") :
    (decodeAndCleanUrl b64).raw ≠ none := by
  unfold decodeAndCleanUrl
  rw [if_neg h]
  split
  · simp
  · simp

/-- C10 witness at the concrete input "abc". -/
theorem c10_raw_present_witness :
    "abc" ≠ "" ∧ (decodeAndCleanUrl "abc").raw ≠ none :=
  ⟨by decide, c10_raw_present "abc" (by decide)⟩

/-! ### C9 — success ↔ error = null, in both variants -/

/-- C9: every result of `createDownloadLink` — the token-appending variant
and the backend-proxied `DynamicContainer` variant — has `success = true`
exactly when `error` is null. -/
theorem c9_success_iff_no_error :
    (∀ (b64 : String) (sd : Bool) (cfg : Option String),
      (createDownloadLink b64 sd cfg).success = true ↔
      (createDownloadLink b64 sd cfg).error = none) ∧
    (∀ b64 : String,
      (DynamicContainer.createDownloadLink b64).success = true ↔
      (DynamicContainer.createDownloadLink b64).error = none) := by
  constructor
  · intro b64 sd cfg
    unfold createDownloadLink
    split
    · simp
    · rcases hc : (decodeAndCleanUrl b64).cleaned with _ | c <;> simp [hc]
  · intro b64
    unfold DynamicContainer.createDownloadLink
    split <;> simp

/-! ### C2 — failures degrade to error strings, never exceptions -/

/-- C2: `createDownloadLink` is a total function in the embedding (every
throwing platform primitive of the pipeline is caught inside the callees,
exactly as in the source, so no exception crosses the boundary), and every
failure result carries a non-empty human-readable error string. -/
theorem c2_failure_has_error (b64 : String) (sd : Bool) (cfg : Option String)
    (h : (createDownloadLink b64 sd cfg).success = false) :
    ∃ msg, (createDownloadLink b64 sd cfg).error = some msg ∧ msg ≠ "" := by
  by_cases hb : b64 = ""
  · subst hb
    exact ⟨"No Base64 URL provided", rfl, by decide⟩
  · rcases hc : (decodeAndCleanUrl b64).cleaned with _ | c
    · refine ⟨"Could not extract a valid PDF URL", ?_, by decide⟩
      unfold createDownloadLink
      rw [if_neg hb]
      simp [hc]
    · exfalso
      unfold createDownloadLink at h
      rw [if_neg hb] at h
      simp [hc] at h

/-- C2 witness: the empty-input failure carries its error string. -/
theorem c2_failure_has_error_witness :
    (createDownloadLink "" false none).success = false ∧
    ∃ msg, (createDownloadLink "" false none).error = some msg ∧ msg ≠ "" :=
  ⟨rfl, c2_failure_has_error "" false none rfl⟩

/-! ### C7 — appendSasToken and the single '?' -/

/-- C7 counterexample: for the url "u" (no query string) and the non-empty
token "a?b", the result "u?a?b" contains two '?' characters, not exactly
one as claimed. -/
theorem c7_counterexample :
    "a?b" ≠ "" ∧ (appendSasToken "u" "a?b").data.count '?' = 2 := by
  constructor
  · decide
  · rfl

/-- C7 as amended: for every url containing at most one '?' and every
non-empty token that contains no '?' beyond an optional single leading one
(which `appendSasToken` strips), the result contains exactly one '?'. -/
theorem c7_amended (url sasToken : String) (htok : sasToken ≠ "")
    (hurl : url.data.count '?' ≤ 1)
    (hq : (if sasToken.data.head? == some '?' then sasToken.data.drop 1
           else sasToken.data).count '?' = 0) :
    (appendSasToken url sasToken).data.count '?' = 1 := by
  have htokc :
      (if sasToken.data.head? == some '?' then String.mk (sasToken.data.drop 1)
       else sasToken).data.count '?' = 0 := by
    by_cases hh : sasToken.data.head? == some '?'
    · rw [if_pos hh] at hq ⊢; exact hq
    · rw [if_neg hh] at hq ⊢; exact hq
  unfold appendSasToken
  rw [if_neg htok]
  simp only [String.data_append, List.count_append]
  rw [htokc]
  by_cases hc : url.data.contains '?' = true
  · have h1 : 0 < url.data.count '?' :=
      List.count_pos_iff.mpr (by simpa using hc)
    rw [if_pos hc]
    have hamp : ("&" : String).data.count '?' = 0 := rfl
    rw [hamp]
    omega
  · have h1 : url.data.count '?' = 0 :=
      List.count_eq_zero.mpr (by simpa using (Bool.not_eq_true _ ▸ hc : url.data.contains '?' = false))
    rw [if_neg hc]
    have hqm : ("?" : String).data.count '?' = 1 := rfl
    rw [hqm]
    omega

/-- C7 witness: `appendSasToken "https://x/y.pdf" "?tok=1"` has exactly one
'?'. -/
theorem c7_amended_witness :
    "?tok=1" ≠ "" ∧ "https://x/y.pdf".data.count '?' ≤ 1 ∧
    (appendSasToken "https://x/y.pdf" "?tok=1").data.count '?' = 1 :=
  ⟨by decide, by decide,
   c7_amended "https://x/y.pdf" "?tok=1" (by decide) (by decide) (by decide)⟩

/-! ### C5 — the terminal fallback of customBase64Decode -/

/-- C5 counterexample: on the input "=a" every decode attempt fails
(standard, URL-safe fallback, and the retry on "="), yet the function
returns "=" — the input of the deepest retry — not the original input
"=a". -/
theorem c5_counterexample :
    cbdAllFail "=a".data = true ∧ customBase64Decode "=a" = "=" ∧ ("=" : String) ≠ "=a" :=
  ⟨by decide, by decide, by decide⟩

lemma cbd_allFail_eq_deep (fuel : Nat) :
    ∀ input : List Char, input.length ≤ fuel → cbdAllFailGo fuel input = true →
      cbdGo fuel input = cbdDeepFallbackGo fuel input := by
  induction fuel with
  | zero =>
    intro input hlen hf
    simp [cbdAllFailGo] at hf
  | succ fuel ih =>
    intro input hlen hf
    unfold cbdAllFailGo at hf
    unfold cbdGo cbdDeepFallbackGo
    by_cases he : input = []
    · simp [he] at hf
    · rw [if_neg he] at hf
      rw [if_neg he, if_neg he]
      rcases h1 : atobL (padB64 (stripTrailingNonB64 input)) with e | r
      · simp only [h1] at hf ⊢
        rcases h2 : (match atobL ((padB64 (stripTrailingNonB64 input)).map urlSafeFix) with
                     | .ok bytes => decodeURIComponentL (pctEncodeAll bytes)
                     | .error e => .error e) with e2 | r2
        · simp only [h2] at hf ⊢
          by_cases hl : 1 < (stripTrailingNonB64 input).length
          · rw [if_pos hl] at hf ⊢
            rw [if_pos hl]
            apply ih _ _ hf
            have hle := stripTrailingNonB64_length_le input
            have hpos : 0 < input.length := List.length_pos.mpr he
            simp only [List.length_dropLast]
            omega
          · rw [if_neg hl, if_neg hl]
        · simp only [h2] at hf
          exact absurd hf (by decide)
      · simp only [h1] at hf
        exact absurd hf (by decide)

/-- C5 as amended: when every decode attempt fails, `customBase64Decode`
returns (without raising — it is a total function) the input of the
deepest retry, i.e. the cleaned input repeatedly truncated by one
character until at most one character remains; this is the original input
only when no retry happened at all. -/
theorem c5_amended (input : String) (h : cbdAllFail input.data = true) :
    customBase64Decode input = String.mk (cbdDeepFallback input.data) := by
  unfold customBase64Decode cbdCore
  unfold cbdAllFail at h
  unfold cbdDeepFallback
  rw [cbd_allFail_eq_deep input.data.length input.data le_rfl h]

/-- C5 witness at the concrete input "=a". -/
theorem c5_amended_witness :
    cbdAllFail "=a".data = true ∧
    customBase64Decode "=a" = String.mk (cbdDeepFallback "=a".data) :=
  ⟨by decide, c5_amended "=a" (by decide)⟩

/-! ### C6 — sanitizeSasToken idempotence -/

/-- C6 counterexample: sanitizing `&quot;x&quot;` once yields `"x"`
(quotes re-exposed by entity decoding); sanitizing again strips those
quotes and yields `x`, so `sanitizeSasToken` is not idempotent. -/
theorem c6_counterexample :
    sanitizeSasToken (sanitizeSasToken "&quot;x&quot;") ≠
      sanitizeSasToken "&quot;x&quot;" := by decide

/-- A second way idempotence fails: entity decoding can produce a literal
`</textarea>` end tag, which the next pass's RCDATA parse consumes. -/
lemma sanitize_endtag_trace :
    sanitizeSasToken "&lt;/textarea&gt;abc" = "</textarea>abc" ∧
    sanitizeSasToken "</textarea>abc" = "abc" := by
  constructor
  · decide
  · decide

lemma entGo_plain (fuel : Nat) :
    ∀ l : List Char, '&' ∉ l → '<' ∉ l → entGo fuel l = l := by
  induction fuel with
  | zero => intro l _ _; rfl
  | succ fuel ih =>
    intro l h hlt
    rcases l with _ | ⟨c, r⟩
    · rfl
    · have hc : ¬ c = '&' := fun hh => h (hh ▸ List.mem_cons_self c r)
      have hc2 : ¬ c = '<' := fun hh => hlt (hh ▸ List.mem_cons_self c r)
      show entGo (fuel + 1) (c :: r) = c :: r
      simp only [entGo]
      rw [if_neg hc, if_neg hc2,
        ih r (fun hm => h (List.mem_cons_of_mem c hm))
          (fun hm => hlt (List.mem_cons_of_mem c hm))]

lemma decodeEntitiesL_plain (l : List Char) (h : '&' ∉ l) (hlt : '<' ∉ l) :
    decodeEntitiesL l = l :=
  entGo_plain l.length l h hlt

lemma sanitize_fixpoint (s : String)
    (h1 : trimL s.data = s.data)
    (h2 : ((s.data.head? == some '"' && s.data.getLast? == some '"') ||
           (s.data.head? == some (Char.ofNat 39) && s.data.getLast? == some (Char.ofNat 39)))
          = false)
    (h3 : '&' ∉ s.data) (h4 : '<' ∉ s.data) :
    sanitizeSasToken s = s := by
  by_cases he : s = ""
  · rw [he]; rfl
  · unfold sanitizeSasToken
    rw [if_neg he]
    simp only [h1, h2, Bool.false_eq_true, if_false]
    rw [decodeEntitiesL_plain s.data h3 h4]

/-- C6 as amended: `sanitizeSasToken` is idempotent on every token whose
sanitized form is trim-stable, is not wrapped in a matching pair of quotes,
contains no `&` (hence no decodable HTML entity) and contains no `<` (hence
no RCDATA `</textarea>` end tag); the counterexample shows the general
claim fails when entity decoding re-exposes quotes, whitespace, entities or
an end tag. -/
theorem c6_amended (t : String)
    (h1 : trimL (sanitizeSasToken t).data = (sanitizeSasToken t).data)
    (h2 : (((sanitizeSasToken t).data.head? == some '"' &&
            (sanitizeSasToken t).data.getLast? == some '"') ||
           ((sanitizeSasToken t).data.head? == some (Char.ofNat 39) &&
            (sanitizeSasToken t).data.getLast? == some (Char.ofNat 39))) = false)
    (h3 : '&' ∉ (sanitizeSasToken t).data)
    (h4 : '<' ∉ (sanitizeSasToken t).data) :
    sanitizeSasToken (sanitizeSasToken t) = sanitizeSasToken t :=
  sanitize_fixpoint (sanitizeSasToken t) h1 h2 h3 h4

/-- C6 witness: the already-clean token "abc123" is a fixpoint. -/
theorem c6_amended_witness :
    trimL (sanitizeSasToken "abc123").data = (sanitizeSasToken "abc123").data ∧
    sanitizeSasToken (sanitizeSasToken "abc123") = sanitizeSasToken "abc123" :=
  ⟨by decide, c6_amended "abc123" (by decide) (by decide) (by decide) (by decide)⟩

/-! ### C3 — HTML escaping of interpolated content -/

/-- C3: the source requires decoded/user content to be HTML-escaped before
insertion, but `createDownloadLink` interpolates it verbatim: on the input
"<img>" (with diagnostics enabled) the produced HTML contains the raw
substring "<img>" — unescaped markup inside the fragment. -/
theorem c3_unescaped_markup :
    occursIn "<img>".data (createDownloadLink "<img>" true none).html.data = true := by
  decide

/-! ### C1 — shape of the cleaned URL -/

/-- C1 counterexample: for the base64 encoding of "https://a.txtZ" the
cleaned URL is "https://a.txtZ", which does not end at the recognized
extension — the truncation step only searches for ".pdf"
(`indexOf('.pdf')`), so a `.txt`/`.csv` match keeps its trailing
characters. -/
theorem c1_counterexample :
    (decodeAndCleanUrl (String.mk (base64EncodeBytes (utf8Encode "https://a.txtZ")))).cleaned
      = some "https://a.txtZ" ∧
    (endsWithL ".pdf".data (asciiLower "https://a.txtZ".data) ||
     endsWithL ".txt".data (asciiLower "https://a.txtZ".data) ||
     endsWithL ".csv".data (asciiLower "https://a.txtZ".data)) = false := by
  constructor
  · decide
  · decide

/-- A U+0130 ("İ") before the ".pdf" shifts the `indexOf` cut by one:
`toLowerCase` turns it into two characters, so `substring(0, idx + 4)` on
the original string keeps one character past the extension. -/
lemma cleaned_dotI_trace :
    (decodeAndCleanUrl (String.mk (base64EncodeBytes (utf8Encode "https://aİ.pdfZZ")))).cleaned
      = some "https://aİ.pdfZ" := by decide

lemma lowerC_of_lineTerm {c : Char} (h : isLineTerm c = true) : lowerC c = c := by
  simp only [isLineTerm, Bool.or_eq_true, beq_iff_eq] at h
  rcases h with ((h | h) | h) | h <;> subst h <;> decide

lemma isLineTerm_false_of_lower {c p : Char} (hl : lowerC c = p)
    (hp : isLineTerm p = false) : isLineTerm c = false := by
  by_contra hc
  have hc' : isLineTerm c = true := by
    revert hc
    cases isLineTerm c <;> simp
  rw [lowerC_of_lineTerm hc'] at hl
  rw [hl] at hc'
  rw [hc'] at hp
  exact absurd hp (by decide)

lemma ciPfx_takeLine :
    ∀ (pat l r : List Char), (∀ p ∈ pat, isLineTerm p = false) →
      ciPfx pat l = some r → ciPfx pat (takeLine l) = some (takeLine r) := by
  intro pat
  induction pat with
  | nil =>
    intro l r _ h
    obtain rfl : l = r := by simpa [ciPfx] using h
    rfl
  | cons p ps ih =>
    intro l r hlt h
    rcases l with _ | ⟨c, cs⟩
    · simp [ciPfx] at h
    · simp only [ciPfx] at h
      split at h
      · rename_i hlow
        have hlow' : lowerC c = p := by simpa using hlow
        have hct : isLineTerm c = false :=
          isLineTerm_false_of_lower hlow' (hlt p (by simp))
        have htl : takeLine (c :: cs) = c :: takeLine cs := by
          simp [takeLine, List.takeWhile_cons, hct]
        rw [htl]
        simp only [ciPfx, hlow, if_true]
        exact ih cs r (fun q hq => hlt q (by simp [hq])) h
      · exact absurd h (by simp)

lemma scanUrl_proto :
    ∀ {l m : List Char}, scanUrl l = some m →
      ((ciPfx protoHttps m).isSome || (ciPfx protoHttp m).isSome) = true := by
  intro l
  induction l with
  | nil => intro m h; simp [scanUrl] at h
  | cons c r ih =>
    intro m h
    simp only [scanUrl] at h
    split at h
    · rename_i hat
      obtain rfl : takeLine (c :: r) = m := by simpa using h
      unfold attemptAt at hat
      unfold matchProtoAt at hat
      rcases h8 : ciPfx protoHttps (c :: r) with _ | rest8
      · rw [h8] at hat
        rcases h7 : ciPfx protoHttp (c :: r) with _ | rest7
        · rw [h7] at hat; simp at hat
        · have := ciPfx_takeLine protoHttp (c :: r) rest7 (by decide) h7
          rw [this]
          simp
      · have := ciPfx_takeLine protoHttps (c :: r) rest8 (by decide) h8
        rw [this]
        simp
    · exact ih h

lemma pfxAt_take :
    ∀ (pat l : List Char) (k : Nat), pat.length ≤ k →
      pfxAt pat (l.take k) = pfxAt pat l := by
  intro pat
  induction pat with
  | nil => intro l k _; rfl
  | cons p ps ih =>
    intro l k hk
    rcases k with _ | k
    · simp at hk
    · rcases l with _ | ⟨c, cs⟩
      · rfl
      · simp only [List.take_succ_cons, pfxAt]
        rw [ih cs k (by simpa using hk)]

lemma firstIdxOf_zero_of_pfx {pat l : List Char} (h : pfxAt pat l = true) :
    firstIdxOf pat l = some 0 := by
  rcases l with _ | ⟨c, cs⟩ <;> simp [firstIdxOf, h]

lemma firstIdxOf_take :
    ∀ (l : List Char) (pat : List Char) (i : Nat),
      firstIdxOf pat l = some i →
      firstIdxOf pat (l.take (i + pat.length)) = some i := by
  intro l
  induction l with
  | nil =>
    intro pat i h
    simpa using h
  | cons c r ih =>
    intro pat i h
    simp only [firstIdxOf] at h
    split at h
    · rename_i hp
      obtain rfl : (0 : Nat) = i := by simpa using h
      have hp' : pfxAt pat ((c :: r).take (0 + pat.length)) = true := by
        rw [pfxAt_take pat (c :: r) (0 + pat.length) (by omega)]
        exact hp
      exact firstIdxOf_zero_of_pfx hp'
    · rename_i hp
      simp only [Option.map_eq_some'] at h
      obtain ⟨i', hi', rfl⟩ := h
      have ht : (c :: r).take (i' + 1 + pat.length) = c :: r.take (i' + pat.length) := by
        have : i' + 1 + pat.length = (i' + pat.length) + 1 := by omega
        rw [this, List.take_succ_cons]
      rw [ht]
      have hpf : pfxAt pat (c :: r.take (i' + pat.length)) = false := by
        have h1 : c :: r.take (i' + pat.length) = (c :: r).take (i' + pat.length + 1) := by
          rw [List.take_succ_cons]
        rw [h1, pfxAt_take pat (c :: r) (i' + pat.length + 1) (by omega)]
        simpa using hp
      simp only [firstIdxOf, hpf, Bool.false_eq_true, if_false]
      rw [ih pat i' hi']
      rfl

lemma firstIdxOf_bound :
    ∀ (l pat : List Char) (i : Nat), firstIdxOf pat l = some i →
      i + pat.length ≤ l.length := by
  intro l
  induction l with
  | nil =>
    intro pat i h
    simp only [firstIdxOf] at h
    split at h
    · rename_i hp
      obtain rfl : (0 : Nat) = i := by simpa using h
      simpa using pfxAt_length hp
    · exact absurd h (by simp)
  | cons c r ih =>
    intro pat i h
    simp only [firstIdxOf] at h
    split at h
    · rename_i hp
      obtain rfl : (0 : Nat) = i := by simpa using h
      simpa using pfxAt_length hp
    · simp only [Option.map_eq_some'] at h
      obtain ⟨i', hi', rfl⟩ := h
      have := ih pat i' hi'
      simp only [List.length_cons]
      omega

lemma ciPfx_isSome_take :
    ∀ (pat l r : List Char) (k : Nat), ciPfx pat l = some r → pat.length ≤ k →
      (ciPfx pat (l.take k)).isSome = true := by
  intro pat
  induction pat with
  | nil => intro l r k _ _; simp [ciPfx]
  | cons p ps ih =>
    intro l r k h hk
    rcases l with _ | ⟨c, cs⟩
    · simp [ciPfx] at h
    · rcases k with _ | k
      · simp at hk
      · simp only [List.take_succ_cons, ciPfx] at h ⊢
        split at h
        · rename_i hlow
          rw [if_pos hlow]
          exact ih cs r k h (by simpa using hk)
        · exact absurd h (by simp)

lemma lowerC_dotI : lowerC (Char.ofNat 0x130) = Char.ofNat 0x130 := by decide

lemma jsToLower_cons_ne (c : Char) (r : List Char) (hc : ¬ c = Char.ofNat 0x130) :
    jsToLower (c :: r) = lowerC c :: jsToLower r := by
  simp [jsToLower, lowerChar, hc]

lemma jsToLower_cons_dotI (r : List Char) :
    jsToLower (Char.ofNat 0x130 :: r) = 'i' :: Char.ofNat 0x307 :: jsToLower r := by
  simp [jsToLower, lowerChar]

lemma jsToLower_append (a b : List Char) :
    jsToLower (a ++ b) = jsToLower a ++ jsToLower b := by
  induction a with
  | nil => rfl
  | cons c r ih =>
    show lowerChar c ++ jsToLower (r ++ b) = (lowerChar c ++ jsToLower r) ++ jsToLower b
    rw [ih, List.append_assoc]

/-- On strings without U+0130 the full lowercasing is the ASCII map. -/
lemma jsToLower_no_dotI : ∀ l : List Char, Char.ofNat 0x130 ∉ l → jsToLower l = asciiLower l := by
  intro l
  induction l with
  | nil => intro _; rfl
  | cons c r ih =>
    intro h
    have hc : ¬ c = Char.ofNat 0x130 := fun hh => h (hh ▸ List.mem_cons_self c r)
    have hr : Char.ofNat 0x130 ∉ r := fun hm => h (List.mem_cons_of_mem c hm)
    rw [jsToLower_cons_ne c r hc, ih hr]
    rfl

lemma pdf_pfx_cons_false {x : Char} (hx : ('.' == x) = false) (X : List Char) :
    pfxAt ".pdf".data (x :: X) = false := by
  rw [show ".pdf".data = '.' :: 'p' :: 'd' :: 'f' :: [] from rfl]
  simp [pfxAt, hx]

lemma firstIdxOf_cons_false {pat : List Char} {x : Char} {X : List Char}
    (h : pfxAt pat (x :: X) = false) :
    firstIdxOf pat (x :: X) = (firstIdxOf pat X).map (· + 1) := by
  simp only [firstIdxOf, h, Bool.false_eq_true, if_false]

/-- Every ".pdf" occurrence in the full lowercasing comes from one in the
ASCII lowercasing: the characters introduced by the U+0130 expansion
(`i` and U+0307) are not characters of ".pdf", so no occurrence can use
them. -/
lemma pfxAt_js_to_ascii :
    ∀ (pat l : List Char),
      (∀ p ∈ pat, (p == 'i') = false ∧ (p == Char.ofNat 0x307) = false) →
      pfxAt pat (jsToLower l) = true → pfxAt pat (asciiLower l) = true := by
  intro pat
  induction pat with
  | nil => intro l _ _; rfl
  | cons p ps ih =>
    intro l hch h
    rcases l with _ | ⟨c, r⟩
    · simp [jsToLower, pfxAt] at h
    · by_cases hc : c = Char.ofNat 0x130
      · subst hc
        rw [jsToLower_cons_dotI r] at h
        simp only [pfxAt, Bool.and_eq_true] at h
        have h1 := h.1
        rw [(hch p (by simp)).1] at h1
        exact absurd h1 (by decide)
      · rw [jsToLower_cons_ne c r hc] at h
        simp only [pfxAt, Bool.and_eq_true] at h
        rw [show asciiLower (c :: r) = lowerC c :: asciiLower r from rfl]
        simp only [pfxAt, Bool.and_eq_true]
        exact ⟨h.1, ih r (fun q hq => hch q (by simp [hq])) h.2⟩

/-- The first ".pdf" in the full lowercasing sits at or after the first
".pdf" in the ASCII lowercasing: the U+0130 expansion only inserts
characters, shifting occurrences to larger indices. -/
lemma first_ascii_le_js :
    ∀ (l : List Char) (i : Nat), firstIdxOf ".pdf".data (jsToLower l) = some i →
      ∃ j, firstIdxOf ".pdf".data (asciiLower l) = some j ∧ j ≤ i := by
  intro l
  induction l with
  | nil =>
    intro i h
    rw [show jsToLower [] = [] from rfl,
      show firstIdxOf ".pdf".data [] = none by decide] at h
    exact absurd h (by simp)
  | cons c r ih =>
    intro i h
    by_cases hc : c = Char.ofNat 0x130
    · subst hc
      rw [jsToLower_cons_dotI r] at h
      have hp1 : pfxAt ".pdf".data ('i' :: Char.ofNat 0x307 :: jsToLower r) = false :=
        pdf_pfx_cons_false (by decide) _
      have hp2 : pfxAt ".pdf".data (Char.ofNat 0x307 :: jsToLower r) = false :=
        pdf_pfx_cons_false (by decide) _
      rw [firstIdxOf_cons_false hp1, firstIdxOf_cons_false hp2] at h
      rcases hrec : firstIdxOf ".pdf".data (jsToLower r) with _ | i''
      · rw [hrec] at h
        exact absurd h (by simp)
      · rw [hrec] at h
        simp only [Option.map_some'] at h
        obtain rfl : i'' + 1 + 1 = i := by simpa using h
        obtain ⟨j, hj', hle⟩ := ih i'' hrec
        have hal : asciiLower (Char.ofNat 0x130 :: r)
            = Char.ofNat 0x130 :: asciiLower r := by
          rw [show asciiLower (Char.ofNat 0x130 :: r)
            = lowerC (Char.ofNat 0x130) :: asciiLower r from rfl, lowerC_dotI]
        have hpd : pfxAt ".pdf".data (Char.ofNat 0x130 :: asciiLower r) = false :=
          pdf_pfx_cons_false (by decide) _
        refine ⟨j + 1, ?_, by omega⟩
        rw [hal, firstIdxOf_cons_false hpd, hj']
        rfl
    · rw [jsToLower_cons_ne c r hc] at h
      by_cases hp : pfxAt ".pdf".data (lowerC c :: jsToLower r) = true
      · rw [firstIdxOf_zero_of_pfx hp] at h
        obtain rfl : (0 : Nat) = i := by simpa using h
        have hasc : pfxAt ".pdf".data (asciiLower (c :: r)) = true := by
          apply pfxAt_js_to_ascii ".pdf".data (c :: r) (by decide)
          rw [jsToLower_cons_ne c r hc]
          exact hp
        exact ⟨0, firstIdxOf_zero_of_pfx hasc, Nat.le_refl 0⟩
      · have hp' : pfxAt ".pdf".data (lowerC c :: jsToLower r) = false := by
          revert hp
          cases pfxAt ".pdf".data (lowerC c :: jsToLower r) <;> simp
        rw [firstIdxOf_cons_false hp'] at h
        rcases hrec : firstIdxOf ".pdf".data (jsToLower r) with _ | i''
        · rw [hrec] at h
          exact absurd h (by simp)
        · rw [hrec] at h
          simp only [Option.map_some'] at h
          obtain rfl : i'' + 1 = i := by simpa using h
          obtain ⟨j, hj', hle⟩ := ih i'' hrec
          have hal : asciiLower (c :: r) = lowerC c :: asciiLower r := rfl
          by_cases hpa : pfxAt ".pdf".data (lowerC c :: asciiLower r) = true
          · refine ⟨0, ?_, by omega⟩
            rw [hal]
            exact firstIdxOf_zero_of_pfx hpa
          · have hpa' : pfxAt ".pdf".data (lowerC c :: asciiLower r) = false := by
              revert hpa
              cases pfxAt ".pdf".data (lowerC c :: asciiLower r) <;> simp
            refine ⟨j + 1, ?_, by omega⟩
            rw [hal, firstIdxOf_cons_false hpa', hj']
            rfl

lemma firstIdxOf_ge_of_ciPfx :
    ∀ (pat m r : List Char) (i : Nat),
      (∀ p ∈ pat, ('.' == p) = false ∧ p.toNat < 128) →
      ciPfx pat m = some r → firstIdxOf ".pdf".data (jsToLower m) = some i →
      pat.length ≤ i := by
  intro pat
  induction pat with
  | nil => intro m r i _ _ _; simp
  | cons p ps ih =>
    intro m r i hdot h hidx
    rcases m with _ | ⟨c, cs⟩
    · simp [ciPfx] at h
    · simp only [ciPfx] at h
      split at h
      · rename_i hlow
        have hlow' : lowerC c = p := by simpa using hlow
        have hci : ¬ c = Char.ofNat 0x130 := by
          intro hcc
          rw [hcc, lowerC_dotI] at hlow'
          have hp128 := (hdot p (by simp)).2
          rw [← hlow'] at hp128
          exact absurd hp128 (by decide)
        rw [jsToLower_cons_ne c cs hci, hlow'] at hidx
        have hpf : pfxAt ".pdf".data (p :: jsToLower cs) = false :=
          pdf_pfx_cons_false (hdot p (by simp)).1 _
        rw [firstIdxOf_cons_false hpf] at hidx
        rcases hrec : firstIdxOf ".pdf".data (jsToLower cs) with _ | i'
        · rw [hrec] at hidx
          exact absurd hidx (by simp)
        · rw [hrec] at hidx
          simp only [Option.map_some'] at hidx
          obtain rfl : i' + 1 = i := by simpa using hidx
          have := ih cs r i' (fun q hq => hdot q (by simp [hq])) h hrec
          simp only [List.length_cons]
          omega
      · exact absurd h (by simp)

/-- The two structural properties of any non-null `cleaned` value produced
by the match-and-truncate step of `decodeAndCleanUrl`. -/
lemma cleaned_shape (d : List Char) (c : String)
    (h : (match scanUrl d with
          | none => none
          | some m =>
            match firstIdxOf ".pdf".data (jsToLower m) with
            | some i => some (String.mk (m.take (i + 4)))
            | none => some (String.mk m)) = some c) :
    ((ciPfx protoHttps c.data).isSome || (ciPfx protoHttp c.data).isSome) = true ∧
    (∀ i, Char.ofNat 0x130 ∉ c.data →
      firstIdxOf ".pdf".data (jsToLower c.data) = some i → c.data.length = i + 4) := by
  rcases hm : scanUrl d with _ | m
  · rw [hm] at h; simp at h
  · simp only [hm] at h
    have hproto := scanUrl_proto hm
    rcases hidx : firstIdxOf ".pdf".data (jsToLower m) with _ | i
    · rw [hidx] at h
      obtain rfl : String.mk m = c := by simpa using h
      refine ⟨hproto, ?_⟩
      intro i _ hi
      rw [show (String.mk m).data = m from rfl] at hi
      rw [hidx] at hi
      exact absurd hi (by simp)
    · rw [hidx] at h
      obtain rfl : String.mk (m.take (i + 4)) = c := by simpa using h
      have hdata : (String.mk (m.take (i + 4))).data = m.take (i + 4) := rfl
      constructor
      · have hproto' : (ciPfx protoHttps m).isSome = true ∨ (ciPfx protoHttp m).isSome = true := by
          simpa using hproto
        rcases hproto' with h8 | h7
        · obtain ⟨rest, hrest⟩ := Option.isSome_iff_exists.mp h8
          have hge : protoHttps.length ≤ i :=
            firstIdxOf_ge_of_ciPfx protoHttps m rest i (by decide) hrest hidx
          have : (ciPfx protoHttps ((String.mk (m.take (i + 4))).data)).isSome = true := by
            rw [hdata]
            exact ciPfx_isSome_take protoHttps m rest (i + 4) hrest
              (le_trans hge (Nat.le_add_right i 4))
          rw [this]
          simp
        · obtain ⟨rest, hrest⟩ := Option.isSome_iff_exists.mp h7
          have hge : protoHttp.length ≤ i :=
            firstIdxOf_ge_of_ciPfx protoHttp m rest i (by decide) hrest hidx
          have : (ciPfx protoHttp ((String.mk (m.take (i + 4))).data)).isSome = true := by
            rw [hdata]
            exact ciPfx_isSome_take protoHttp m rest (i + 4) hrest
              (le_trans hge (Nat.le_add_right i 4))
          rw [this]
          simp
      · intro i' hdotI hi'
        rw [hdata] at hdotI hi'
        have hle : i + 4 ≤ m.length := by
          by_contra hgt
          push_neg at hgt
          have htk : m.take (i + 4) = m := List.take_of_length_le (by omega)
          rw [htk] at hdotI
          have hjsm : jsToLower m = asciiLower m := jsToLower_no_dotI m hdotI
          have hb := firstIdxOf_bound (jsToLower m) ".pdf".data i hidx
          have hlen4 : (".pdf".data).length = 4 := rfl
          have hlen : (asciiLower m).length = m.length := by simp [asciiLower]
          rw [hjsm, hlen4, hlen] at hb
          omega
        have hsplit : jsToLower m = jsToLower (m.take (i + 4)) ++ jsToLower (m.drop (i + 4)) := by
          rw [← jsToLower_append, List.take_append_drop]
        have hpre : jsToLower (m.take (i + 4)) = asciiLower (m.take (i + 4)) :=
          jsToLower_no_dotI _ hdotI
        have hprelen : (jsToLower (m.take (i + 4))).length = i + 4 := by
          rw [hpre]
          simp only [asciiLower, List.length_map, List.length_take]
          omega
        have htake : (jsToLower m).take (i + 4) = jsToLower (m.take (i + 4)) := by
          rw [hsplit]
          exact List.take_left' hprelen
        have h6 : firstIdxOf ".pdf".data (jsToLower (m.take (i + 4))) = some i := by
          rw [← htake]
          have := firstIdxOf_take (jsToLower m) ".pdf".data i hidx
          simpa using this
        rw [h6] at hi'
        obtain rfl : i = i' := by simpa using hi'
        rw [hdata]
        simp only [List.length_take]
        omega

/-- C1 as amended: whenever `decodeAndCleanUrl` returns a non-null cleaned
value, that value starts with `http://` or `https://` (case-insensitive);
and when the cleaned value contains no U+0130 — the one character whose
`toLowerCase` image is longer, which shifts the `indexOf('.pdf')` cut — it
ends immediately after the first occurrence of ".pdf" in its lowercase
image.  The original claim fails for `.txt`/`.csv` matches containing no
".pdf" (the truncation step searches only for ".pdf", so such values may
retain trailing characters after the extension), and the ends-at-".pdf"
part fails for values with a U+0130 before the ".pdf" (see
`cleaned_dotI_trace`). -/
theorem c1_amended (b64 c : String)
    (h : (decodeAndCleanUrl b64).cleaned = some c) :
    ((ciPfx protoHttps c.data).isSome || (ciPfx protoHttp c.data).isSome) = true ∧
    (∀ i, Char.ofNat 0x130 ∉ c.data →
      firstIdxOf ".pdf".data (jsToLower c.data) = some i → c.data.length = i + 4) := by
  unfold decodeAndCleanUrl at h
  by_cases hb : b64 = ""
  · rw [if_pos hb] at h
    exact absurd h (by simp)
  · rw [if_neg hb] at h
    by_cases hs : b64 = specialB64
    · rw [if_pos hs] at h
      obtain rfl : specialUrl = c := by simpa using h
      refine ⟨by decide, ?_⟩
      intro i _ hi
      have hcomp : firstIdxOf ".pdf".data (jsToLower specialUrl.data) = some 161 := by
        decide
      rw [hcomp] at hi
      obtain rfl : (161 : Nat) = i := by simpa using hi
      decide
    · rw [if_neg hs] at h
      exact cleaned_shape _ c h

/-! ### C4 — the encode-then-resolve round trip

Part 1: `atob` is a left inverse of standard base64 encoding. -/

lemma b64CharOf_ne_eq (n : Nat) : b64CharOf n ≠ '=' := by
  by_cases h : n < 64
  · have hb : ∀ m, m < 64 → b64CharOf m ≠ '=' := by decide
    exact hb n h
  · unfold b64CharOf
    rw [List.getD_eq_default]
    · decide
    · have : b64Alphabet.length = 64 := rfl
      omega

lemma b64CharOf_not_ws (n : Nat) : isAsciiWs (b64CharOf n) = false := by
  by_cases h : n < 64
  · have hb : ∀ m, m < 64 → isAsciiWs (b64CharOf m) = false := by decide
    exact hb n h
  · unfold b64CharOf
    rw [List.getD_eq_default]
    · decide
    · have : b64Alphabet.length = 64 := rfl
      omega

lemma b64PadEnc_mem {n : Nat} {c : Char} (h : c ∈ b64PadEnc n) : c = '=' := by
  unfold b64PadEnc at h
  split at h <;> simp_all

lemma b64PadEnc_add3 (n : Nat) : b64PadEnc (n + 3) = b64PadEnc n := by
  unfold b64PadEnc
  have : (n + 3) % 3 = n % 3 := by omega
  rw [this]

lemma b64ValsEnc_lt (bs : List Nat) (h : ∀ b ∈ bs, b < 256) :
    ∀ v ∈ b64ValsEnc bs, v < 64 := by
  induction bs using b64ValsEnc.induct with
  | case1 a b c rest ih =>
    have ha : a < 256 := h a (by simp)
    have hb : b < 256 := h b (by simp)
    have hc : c < 256 := h c (by simp)
    intro v hv
    simp only [b64ValsEnc, List.mem_cons] at hv
    rcases hv with rfl | rfl | rfl | rfl | hv
    · omega
    · omega
    · omega
    · omega
    · exact ih (fun x hx => h x (by simp [hx])) v hv
  | case2 a b =>
    have ha : a < 256 := h a (by simp)
    have hb : b < 256 := h b (by simp)
    intro v hv
    simp only [b64ValsEnc, List.mem_cons] at hv
    rcases hv with rfl | rfl | rfl | hv
    · omega
    · omega
    · omega
    · simp at hv
  | case3 a =>
    have ha : a < 256 := h a (by simp)
    intro v hv
    simp only [b64ValsEnc, List.mem_cons] at hv
    rcases hv with rfl | rfl | hv
    · omega
    · omega
    · simp at hv
  | case4 => intro v hv; simp [b64ValsEnc] at hv

lemma b64Val_b64CharOf {n : Nat} (h : n < 64) : b64Val (b64CharOf n) = some n := by
  have hb : ∀ m, m < 64 → b64Val (b64CharOf m) = some m := by decide
  exact hb n h

lemma b64ValsOf_map (vs : List Nat) (h : ∀ v ∈ vs, v < 64) :
    b64ValsOf (vs.map b64CharOf) = some vs := by
  induction vs with
  | nil => rfl
  | cons v vs ih =>
    simp only [List.map_cons, b64ValsOf]
    rw [b64Val_b64CharOf (h v (by simp)), ih (fun x hx => h x (by simp [hx]))]

lemma decodeQuads_b64ValsEnc (bs : List Nat) (h : ∀ b ∈ bs, b < 256) :
    decodeQuads (b64ValsEnc bs) = bs := by
  induction bs using b64ValsEnc.induct with
  | case1 a b c rest ih =>
    have ha : a < 256 := h a (by simp)
    have hb : b < 256 := h b (by simp)
    have hc : c < 256 := h c (by simp)
    simp only [b64ValsEnc, decodeQuads, List.cons.injEq]
    rw [ih (fun x hx => h x (by simp [hx]))]
    exact ⟨by omega, by omega, by omega, rfl⟩
  | case2 a b =>
    have ha : a < 256 := h a (by simp)
    have hb : b < 256 := h b (by simp)
    simp only [b64ValsEnc, decodeQuads, List.cons.injEq]
    exact ⟨by omega, by omega, trivial⟩
  | case3 a =>
    have ha : a < 256 := h a (by simp)
    simp only [b64ValsEnc, decodeQuads, List.cons.injEq]
    exact ⟨by omega, trivial⟩
  | case4 => rfl

lemma enc_total_len_mod (bs : List Nat) :
    ((b64ValsEnc bs).length + (b64PadEnc bs.length).length) % 4 = 0 := by
  induction bs using b64ValsEnc.induct with
  | case1 a b c rest ih =>
    have h1 : (b64ValsEnc (a :: b :: c :: rest)).length = 4 + (b64ValsEnc rest).length := by
      simp [b64ValsEnc]
      omega
    have h2 : (a :: b :: c :: rest).length = rest.length + 3 := by
      simp
    rw [h1, h2, b64PadEnc_add3]
    omega
  | case2 a b => simp [b64ValsEnc, b64PadEnc]
  | case3 a => simp [b64ValsEnc, b64PadEnc]
  | case4 => rfl

lemma enc_vals_len_mod (bs : List Nat) : (b64ValsEnc bs).length % 4 ≠ 1 := by
  induction bs using b64ValsEnc.induct with
  | case1 a b c rest ih =>
    have h1 : (b64ValsEnc (a :: b :: c :: rest)).length = 4 + (b64ValsEnc rest).length := by
      simp [b64ValsEnc]
      omega
    rw [h1]
    omega
  | case2 a b => simp [b64ValsEnc]
  | case3 a => simp [b64ValsEnc]
  | case4 => simp [b64ValsEnc]

lemma map_charOf_getLast_ne (bs : List Nat) :
    (((b64ValsEnc bs).map b64CharOf).getLast? == some '=') = false := by
  rw [List.getLast?_map]
  cases h : (b64ValsEnc bs).getLast? with
  | none => rfl
  | some v => simp [b64CharOf_ne_eq v]

lemma stripPadEq_encode (bs : List Nat) :
    stripPadEq (base64EncodeBytes bs) = (b64ValsEnc bs).map b64CharOf := by
  have hmod := enc_total_len_mod bs
  have hmapne := map_charOf_getLast_ne bs
  unfold stripPadEq base64EncodeBytes
  have hlen : (((b64ValsEnc bs).map b64CharOf ++ b64PadEnc bs.length).length % 4 == 0) = true := by
    simp only [List.length_append, List.length_map]
    simpa using hmod
  rw [if_pos hlen]
  have hne : ¬ ((((b64ValsEnc bs).map b64CharOf).getLast? == some '=') = true) := by
    rw [hmapne]
    decide
  have hlt : bs.length % 3 < 3 := Nat.mod_lt _ (by norm_num)
  rcases h3 : bs.length % 3 with _ | k
  · have hpad : b64PadEnc bs.length = [] := by unfold b64PadEnc; rw [h3]
    rw [hpad, List.append_nil]
    rw [if_neg hne, if_neg hne]
  · rcases k with _ | k
    · have hpad : b64PadEnc bs.length = ['=', '='] := by unfold b64PadEnc; rw [h3]
      rw [hpad]
      have he1 : ((b64ValsEnc bs).map b64CharOf ++ ['=', '=']) =
          (((b64ValsEnc bs).map b64CharOf ++ ['=']) ++ ['=']) := by
        simp
      rw [he1]
      have hc1 : (((((b64ValsEnc bs).map b64CharOf ++ ['=']) ++ ['=']).getLast? == some '=')
          = true) := by
        rw [List.getLast?_concat]
        decide
      rw [if_pos hc1, List.dropLast_concat]
      have hc2 : ((((b64ValsEnc bs).map b64CharOf ++ ['=']).getLast? == some '=') = true) := by
        rw [List.getLast?_concat]
        decide
      rw [if_pos hc2, List.dropLast_concat]
    · have hk : k = 0 := by
        rw [h3] at hlt
        omega
      subst hk
      have hpad : b64PadEnc bs.length = ['='] := by
        unfold b64PadEnc
        rw [h3]
      rw [hpad]
      have hc2 : ((((b64ValsEnc bs).map b64CharOf ++ ['=']).getLast? == some '=') = true) := by
        rw [List.getLast?_concat]
        decide
      rw [if_pos hc2, List.dropLast_concat]
      rw [if_neg hne]

lemma atobL_encode (bs : List Nat) (h : ∀ b ∈ bs, b < 256) :
    atobL (base64EncodeBytes bs) = .ok (byteChars bs) := by
  unfold atobL
  have hf : (base64EncodeBytes bs).filter (fun c => !isAsciiWs c) = base64EncodeBytes bs := by
    apply List.filter_eq_self.mpr
    intro a ha
    unfold base64EncodeBytes at ha
    rcases List.mem_append.mp ha with hm | hp
    · obtain ⟨v, _, rfl⟩ := List.mem_map.mp hm
      simp [b64CharOf_not_ws]
    · rw [b64PadEnc_mem hp]
      decide
  rw [hf, stripPadEq_encode bs]
  have hguard : (((b64ValsEnc bs).map b64CharOf).length % 4 == 1) = false := by
    simp only [List.length_map]
    simpa using enc_vals_len_mod bs
  simp only [hguard, Bool.false_eq_true, if_false,
    b64ValsOf_map (b64ValsEnc bs) (b64ValsEnc_lt bs h), decodeQuads_b64ValsEnc bs h,
    byteChars]

/-! Part 2: `decodeURIComponent ∘ escape` recovers a string from its UTF-8
byte view. -/

lemma toNat_ofNat_valid {n : Nat} (h : n.isValidChar) : (Char.ofNat n).toNat = n := by
  rw [Char.ofNat, dif_pos h]
  rfl

lemma char_toNat_valid (c : Char) :
    c.toNat < 0xd800 ∨ (0xdfff < c.toNat ∧ c.toNat < 0x110000) := by
  rcases c.valid with h | h
  · left
    simp [Char.toNat] at h ⊢
    omega
  · right
    simp [Char.toNat] at h ⊢
    omega

lemma hexVal_hexDigitUpper : ∀ k < 16, hexVal (hexDigitUpper k) = some k := by decide

lemma escChar_ofNat_high : ∀ k < 256, 0x80 ≤ k →
    escChar (Char.ofNat k) = ['%', hexDigitUpper (k / 16), hexDigitUpper (k % 16)] := by
  decide

lemma escSafe_ne_pct {c : Char} (h : isEscSafe c = true) : ¬ c = '%' := by
  intro hc
  rw [hc] at h
  exact absurd h (by decide)

lemma hex2_length {l : List Char} {b : Nat} {r : List Char} (h : hex2 l = some (b, r)) :
    r.length + 2 = l.length := by
  rcases l with _ | ⟨h1, l⟩
  · simp [hex2] at h
  · rcases l with _ | ⟨h2, l⟩
    · simp [hex2] at h
    · simp only [hex2] at h
      rcases ha : hexVal h1 with _ | a <;> simp only [ha] at h
      · exact absurd h (by simp)
      · rcases hb : hexVal h2 with _ | b' <;> simp only [hb] at h
        · exact absurd h (by simp)
        · simp only [Option.some.injEq, Prod.mk.injEq] at h
          rw [← h.2]
          simp

lemma pctHex2_length {l : List Char} {b : Nat} {r : List Char} (h : pctHex2 l = some (b, r)) :
    r.length + 3 = l.length := by
  rcases l with _ | ⟨c, rest⟩
  · simp [pctHex2] at h
  · simp only [pctHex2] at h
    split at h
    · have := hex2_length h
      simp only [List.length_cons]
      omega
    · exact absurd h (by simp)

lemma pctParse_length {rest : List Char} {d : Char} {r2 : List Char}
    (h : pctParse rest = .ok (d, r2)) : r2.length + 2 ≤ rest.length := by
  unfold pctParse at h
  rcases hh : hex2 rest with _ | ⟨b, rest1⟩ <;> simp only [hh] at h
  · exact absurd h (by simp)
  · have hl1 := hex2_length hh
    split at h
    · simp only [Except.ok.injEq, Prod.mk.injEq] at h
      rw [← h.2]
      omega
    · split at h
      · rcases hp1 : pctHex2 rest1 with _ | ⟨c1, rest2⟩ <;> simp only [hp1] at h
        · exact absurd h (by simp)
        · have hl2 := pctHex2_length hp1
          split at h
          · simp only [Except.ok.injEq, Prod.mk.injEq] at h
            rw [← h.2]
            omega
          · exact absurd h (by simp)
      · split at h
        · rcases hp1 : pctHex2 rest1 with _ | ⟨c1, rest2⟩ <;> simp only [hp1] at h
          · exact absurd h (by simp)
          · rcases hp2 : pctHex2 rest2 with _ | ⟨c2, rest3⟩ <;> simp only [hp2] at h
            · exact absurd h (by simp)
            · have hl2 := pctHex2_length hp1
              have hl3 := pctHex2_length hp2
              split at h
              · simp only [Except.ok.injEq, Prod.mk.injEq] at h
                rw [← h.2]
                omega
              · exact absurd h (by simp)
        · split at h
          · rcases hp1 : pctHex2 rest1 with _ | ⟨c1, rest2⟩ <;> simp only [hp1] at h
            · exact absurd h (by simp)
            · rcases hp2 : pctHex2 rest2 with _ | ⟨c2, rest3⟩ <;> simp only [hp2] at h
              · exact absurd h (by simp)
              · rcases hp3 : pctHex2 rest3 with _ | ⟨c3, rest4⟩ <;> simp only [hp3] at h
                · exact absurd h (by simp)
                · have hl2 := pctHex2_length hp1
                  have hl3 := pctHex2_length hp2
                  have hl4 := pctHex2_length hp3
                  split at h
                  · simp only [Except.ok.injEq, Prod.mk.injEq] at h
                    rw [← h.2]
                    omega
                  · exact absurd h (by simp)
          · exact absurd h (by simp)

lemma uriGo_mono : ∀ (n m : Nat) (l : List Char), l.length ≤ n → l.length ≤ m →
    uriGo n l = uriGo m l := by
  intro n
  induction n with
  | zero =>
    intro m l hn _
    obtain rfl : l = [] := List.eq_nil_of_length_eq_zero (Nat.le_zero.mp hn)
    cases m <;> rfl
  | succ n ih =>
    intro m l hn hm
    rcases l with _ | ⟨c, rest⟩
    · cases m <;> rfl
    · rcases m with _ | m'
      · simp at hm
      · simp only [uriGo]
        by_cases hc : c = '%'
        · rw [if_pos hc, if_pos hc]
          rcases hp : pctParse rest with e | ⟨d, rest2⟩
          · simp [hp]
          · simp only [hp]
            have hl2 := pctParse_length hp
            simp only [List.length_cons] at hn hm
            rw [ih m' rest2 (by omega) (by omega)]
        · rw [if_neg hc, if_neg hc]
          simp only [List.length_cons] at hn hm
          rw [ih m' rest (by omega) (by omega)]

lemma hex2_digits {b : Nat} (hb : b < 256) (tail : List Char) :
    hex2 (hexDigitUpper (b / 16) :: hexDigitUpper (b % 16) :: tail) = some (b, tail) := by
  simp only [hex2]
  rw [hexVal_hexDigitUpper (b / 16) (by omega), hexVal_hexDigitUpper (b % 16) (by omega)]
  show some (b / 16 * 16 + b % 16, tail) = some (b, tail)
  have : b / 16 * 16 + b % 16 = b := by omega
  rw [this]

lemma pctHex2_digits {b : Nat} (hb : b < 256) (tail : List Char) :
    pctHex2 ('%' :: hexDigitUpper (b / 16) :: hexDigitUpper (b % 16) :: tail) = some (b, tail) := by
  simp only [pctHex2, if_pos]
  exact hex2_digits hb tail

lemma uriGo_esc1 (c : Char) (rest : List Char) (fuel : Nat) (h1 : c.toNat < 0x80)
    (hf : (cmapL escChar (byteChars (utf8EncodeChar c))).length + rest.length ≤ fuel) :
    uriGo fuel (cmapL escChar (byteChars (utf8EncodeChar c)) ++ rest) =
      (c :: ·) <$> decodeURIComponentL rest := by
  have henc : utf8EncodeChar c = [c.toNat] := by
    unfold utf8EncodeChar
    rw [if_pos h1]
  have hbc : byteChars [c.toNat] = [c] := by
    simp [byteChars, Char.ofNat_toNat]
  by_cases hsafe : isEscSafe c = true
  · have hesc : cmapL escChar (byteChars (utf8EncodeChar c)) = [c] := by
      rw [henc, hbc]
      simp [cmapL, escChar, hsafe]
    rw [hesc] at hf ⊢
    simp only [List.length_cons, List.length_nil] at hf
    rcases fuel with _ | f
    · omega
    · simp only [List.cons_append, List.nil_append, uriGo]
      rw [if_neg (escSafe_ne_pct hsafe)]
      rw [uriGo_mono f rest.length rest (by omega) le_rfl]
      rfl
  · have h256 : c.toNat < 256 := by omega
    have hesc : cmapL escChar (byteChars (utf8EncodeChar c)) =
        ['%', hexDigitUpper (c.toNat / 16), hexDigitUpper (c.toNat % 16)] := by
      rw [henc, hbc]
      simp only [cmapL, List.append_nil, escChar]
      rw [if_neg hsafe, if_pos h256]
    rw [hesc] at hf ⊢
    simp only [List.length_cons, List.length_nil] at hf
    rcases fuel with _ | f
    · omega
    · simp only [List.cons_append, List.nil_append, uriGo]
      simp only [if_true]
      have hpp : pctParse (hexDigitUpper (c.toNat / 16) :: hexDigitUpper (c.toNat % 16) :: rest)
          = .ok (Char.ofNat c.toNat, rest) := by
        simp only [pctParse, hex2_digits h256 rest, h1, if_true]
      simp only [hpp]
      rw [Char.ofNat_toNat]
      rw [uriGo_mono f rest.length rest (by omega) le_rfl]
      rfl

lemma uriGo_esc2 (c : Char) (rest : List Char) (fuel : Nat)
    (h1 : 0x80 ≤ c.toNat) (h2 : c.toNat < 0x800)
    (hf : (cmapL escChar (byteChars (utf8EncodeChar c))).length + rest.length ≤ fuel) :
    uriGo fuel (cmapL escChar (byteChars (utf8EncodeChar c)) ++ rest) =
      (c :: ·) <$> decodeURIComponentL rest := by
  have hvalid0 : (0xc0 + c.toNat / 64 : Nat).isValidChar := Or.inl (by omega)
  have hvalid1 : (0x80 + c.toNat % 64 : Nat).isValidChar := Or.inl (by omega)
  have henc : utf8EncodeChar c = [0xc0 + c.toNat / 64, 0x80 + c.toNat % 64] := by
    unfold utf8EncodeChar
    rw [if_neg (by omega), if_pos h2]
  have hesc : cmapL escChar (byteChars (utf8EncodeChar c)) =
      '%' :: hexDigitUpper ((0xc0 + c.toNat / 64) / 16) ::
        hexDigitUpper ((0xc0 + c.toNat / 64) % 16) ::
      '%' :: hexDigitUpper ((0x80 + c.toNat % 64) / 16) ::
        hexDigitUpper ((0x80 + c.toNat % 64) % 16) :: [] := by
    rw [henc]
    simp only [byteChars, List.map_cons, List.map_nil, cmapL, List.append_nil]
    rw [escChar_ofNat_high (0xc0 + c.toNat / 64) (by omega) (by omega),
        escChar_ofNat_high (0x80 + c.toNat % 64) (by omega) (by omega)]
    rfl
  rw [hesc] at hf ⊢
  simp only [List.length_cons, List.length_nil] at hf
  rcases fuel with _ | f
  · omega
  · simp only [List.cons_append, List.nil_append, uriGo, if_true]
    have hpp : pctParse (hexDigitUpper ((0xc0 + c.toNat / 64) / 16) ::
        hexDigitUpper ((0xc0 + c.toNat / 64) % 16) ::
        '%' :: hexDigitUpper ((0x80 + c.toNat % 64) / 16) ::
        hexDigitUpper ((0x80 + c.toNat % 64) % 16) :: rest)
        = .ok (Char.ofNat c.toNat, rest) := by
      have hno : ¬ ((0xc0 + c.toNat / 64 : Nat) < 0x80) := by omega
      have hc2 : (decide ((0xc2 : Nat) ≤ 0xc0 + c.toNat / 64) &&
          decide ((0xc0 + c.toNat / 64 : Nat) ≤ 0xdf)) = true := by
        simp only [Bool.and_eq_true, decide_eq_true_eq]
        omega
      have hc1r : (decide ((0x80 : Nat) ≤ 0x80 + c.toNat % 64) &&
          decide ((0x80 + c.toNat % 64 : Nat) ≤ 0xbf)) = true := by
        simp only [Bool.and_eq_true, decide_eq_true_eq]
        omega
      have harith : (0xc0 + c.toNat / 64 - 0xc0) * 64 + (0x80 + c.toNat % 64 - 0x80)
          = c.toNat := by omega
      simp only [pctParse,
        hex2_digits (show (0xc0 + c.toNat / 64 : Nat) < 256 by omega),
        pctHex2_digits (show (0x80 + c.toNat % 64 : Nat) < 256 by omega),
        hno, if_false, hc2, if_true, hc1r, harith]
    simp only [hpp]
    rw [Char.ofNat_toNat]
    rw [uriGo_mono f rest.length rest (by omega) le_rfl]
    rfl

lemma uriGo_esc3 (c : Char) (rest : List Char) (fuel : Nat)
    (h1 : 0x800 ≤ c.toNat) (h2 : c.toNat < 0x10000)
    (hval : c.toNat < 0xd800 ∨ 0xdfff < c.toNat)
    (hf : (cmapL escChar (byteChars (utf8EncodeChar c))).length + rest.length ≤ fuel) :
    uriGo fuel (cmapL escChar (byteChars (utf8EncodeChar c)) ++ rest) =
      (c :: ·) <$> decodeURIComponentL rest := by
  have henc : utf8EncodeChar c =
      [0xe0 + c.toNat / 4096, 0x80 + (c.toNat / 64) % 64, 0x80 + c.toNat % 64] := by
    unfold utf8EncodeChar
    rw [if_neg (by omega), if_neg (by omega), if_pos h2]
  have hesc : cmapL escChar (byteChars (utf8EncodeChar c)) =
      '%' :: hexDigitUpper ((0xe0 + c.toNat / 4096) / 16) ::
        hexDigitUpper ((0xe0 + c.toNat / 4096) % 16) ::
      '%' :: hexDigitUpper ((0x80 + (c.toNat / 64) % 64) / 16) ::
        hexDigitUpper ((0x80 + (c.toNat / 64) % 64) % 16) ::
      '%' :: hexDigitUpper ((0x80 + c.toNat % 64) / 16) ::
        hexDigitUpper ((0x80 + c.toNat % 64) % 16) :: [] := by
    rw [henc]
    simp only [byteChars, List.map_cons, List.map_nil, cmapL, List.append_nil]
    rw [escChar_ofNat_high (0xe0 + c.toNat / 4096) (by omega) (by omega),
        escChar_ofNat_high (0x80 + (c.toNat / 64) % 64) (by omega) (by omega),
        escChar_ofNat_high (0x80 + c.toNat % 64) (by omega) (by omega)]
    rfl
  rw [hesc] at hf ⊢
  simp only [List.length_cons, List.length_nil] at hf
  rcases fuel with _ | f
  · omega
  · simp only [List.cons_append, List.nil_append, uriGo, if_true]
    have hpp : pctParse (hexDigitUpper ((0xe0 + c.toNat / 4096) / 16) ::
        hexDigitUpper ((0xe0 + c.toNat / 4096) % 16) ::
        '%' :: hexDigitUpper ((0x80 + (c.toNat / 64) % 64) / 16) ::
        hexDigitUpper ((0x80 + (c.toNat / 64) % 64) % 16) ::
        '%' :: hexDigitUpper ((0x80 + c.toNat % 64) / 16) ::
        hexDigitUpper ((0x80 + c.toNat % 64) % 16) :: rest)
        = .ok (Char.ofNat c.toNat, rest) := by
      have hno : ¬ ((0xe0 + c.toNat / 4096 : Nat) < 0x80) := by omega
      have hno2 : ((decide ((0xc2 : Nat) ≤ 0xe0 + c.toNat / 4096)) &&
          (decide ((0xe0 + c.toNat / 4096 : Nat) ≤ 0xdf))) = false := by
        simp only [Bool.and_eq_false_iff, decide_eq_false_iff_not]
        right
        omega
      have hyes3 : ((decide ((0xe0 : Nat) ≤ 0xe0 + c.toNat / 4096)) &&
          (decide ((0xe0 + c.toNat / 4096 : Nat) ≤ 0xef))) = true := by
        simp only [Bool.and_eq_true, decide_eq_true_eq]
        omega
      have hcond : (decide (u8c1lo (0xe0 + c.toNat / 4096) ≤ 0x80 + (c.toNat / 64) % 64) &&
          decide ((0x80 + (c.toNat / 64) % 64 : Nat) ≤ u8c1hi (0xe0 + c.toNat / 4096)) &&
          decide ((0x80 : Nat) ≤ 0x80 + c.toNat % 64) &&
          decide ((0x80 + c.toNat % 64 : Nat) ≤ 0xbf)) = true := by
        simp only [Bool.and_eq_true, decide_eq_true_eq, u8c1lo, u8c1hi]
        refine ⟨⟨⟨?_, ?_⟩, by omega⟩, by omega⟩
        · split
          · rename_i hb
            simp only [beq_iff_eq] at hb
            omega
          · split
            · rename_i hb1 hb2
              simp only [beq_iff_eq] at hb2
              omega
            · omega
        · split
          · rename_i hb
            simp only [beq_iff_eq] at hb
            rcases hval with hv | hv <;> omega
          · split
            · rename_i hb1 hb2
              simp only [beq_iff_eq] at hb2
              omega
            · omega
      have harith : (0xe0 + c.toNat / 4096 - 0xe0) * 4096 +
          (0x80 + (c.toNat / 64) % 64 - 0x80) * 64 + (0x80 + c.toNat % 64 - 0x80)
          = c.toNat := by omega
      simp only [pctParse,
        hex2_digits (show (0xe0 + c.toNat / 4096 : Nat) < 256 by omega),
        pctHex2_digits (show (0x80 + (c.toNat / 64) % 64 : Nat) < 256 by omega),
        pctHex2_digits (show (0x80 + c.toNat % 64 : Nat) < 256 by omega),
        hno, if_false, hno2, hyes3, if_true, hcond, harith, Bool.false_eq_true]
    simp only [hpp]
    rw [Char.ofNat_toNat]
    rw [uriGo_mono f rest.length rest (by omega) le_rfl]
    rfl

lemma uriGo_esc4 (c : Char) (rest : List Char) (fuel : Nat)
    (h1 : 0x10000 ≤ c.toNat) (h2 : c.toNat < 0x110000)
    (hf : (cmapL escChar (byteChars (utf8EncodeChar c))).length + rest.length ≤ fuel) :
    uriGo fuel (cmapL escChar (byteChars (utf8EncodeChar c)) ++ rest) =
      (c :: ·) <$> decodeURIComponentL rest := by
  have henc : utf8EncodeChar c =
      [0xf0 + c.toNat / 262144, 0x80 + (c.toNat / 4096) % 64,
       0x80 + (c.toNat / 64) % 64, 0x80 + c.toNat % 64] := by
    unfold utf8EncodeChar
    rw [if_neg (by omega), if_neg (by omega), if_neg (by omega)]
  have hesc : cmapL escChar (byteChars (utf8EncodeChar c)) =
      '%' :: hexDigitUpper ((0xf0 + c.toNat / 262144) / 16) ::
        hexDigitUpper ((0xf0 + c.toNat / 262144) % 16) ::
      '%' :: hexDigitUpper ((0x80 + (c.toNat / 4096) % 64) / 16) ::
        hexDigitUpper ((0x80 + (c.toNat / 4096) % 64) % 16) ::
      '%' :: hexDigitUpper ((0x80 + (c.toNat / 64) % 64) / 16) ::
        hexDigitUpper ((0x80 + (c.toNat / 64) % 64) % 16) ::
      '%' :: hexDigitUpper ((0x80 + c.toNat % 64) / 16) ::
        hexDigitUpper ((0x80 + c.toNat % 64) % 16) :: [] := by
    rw [henc]
    simp only [byteChars, List.map_cons, List.map_nil, cmapL, List.append_nil]
    rw [escChar_ofNat_high (0xf0 + c.toNat / 262144) (by omega) (by omega),
        escChar_ofNat_high (0x80 + (c.toNat / 4096) % 64) (by omega) (by omega),
        escChar_ofNat_high (0x80 + (c.toNat / 64) % 64) (by omega) (by omega),
        escChar_ofNat_high (0x80 + c.toNat % 64) (by omega) (by omega)]
    rfl
  rw [hesc] at hf ⊢
  simp only [List.length_cons, List.length_nil] at hf
  rcases fuel with _ | f
  · omega
  · simp only [List.cons_append, List.nil_append, uriGo, if_true]
    have hpp : pctParse (hexDigitUpper ((0xf0 + c.toNat / 262144) / 16) ::
        hexDigitUpper ((0xf0 + c.toNat / 262144) % 16) ::
        '%' :: hexDigitUpper ((0x80 + (c.toNat / 4096) % 64) / 16) ::
        hexDigitUpper ((0x80 + (c.toNat / 4096) % 64) % 16) ::
        '%' :: hexDigitUpper ((0x80 + (c.toNat / 64) % 64) / 16) ::
        hexDigitUpper ((0x80 + (c.toNat / 64) % 64) % 16) ::
        '%' :: hexDigitUpper ((0x80 + c.toNat % 64) / 16) ::
        hexDigitUpper ((0x80 + c.toNat % 64) % 16) :: rest)
        = .ok (Char.ofNat c.toNat, rest) := by
      have hno : ¬ ((0xf0 + c.toNat / 262144 : Nat) < 0x80) := by omega
      have hno2 : ((decide ((0xc2 : Nat) ≤ 0xf0 + c.toNat / 262144)) &&
          (decide ((0xf0 + c.toNat / 262144 : Nat) ≤ 0xdf))) = false := by
        simp only [Bool.and_eq_false_iff, decide_eq_false_iff_not]
        right
        omega
      have hno3 : ((decide ((0xe0 : Nat) ≤ 0xf0 + c.toNat / 262144)) &&
          (decide ((0xf0 + c.toNat / 262144 : Nat) ≤ 0xef))) = false := by
        simp only [Bool.and_eq_false_iff, decide_eq_false_iff_not]
        right
        omega
      have hyes4 : ((decide ((0xf0 : Nat) ≤ 0xf0 + c.toNat / 262144)) &&
          (decide ((0xf0 + c.toNat / 262144 : Nat) ≤ 0xf4))) = true := by
        simp only [Bool.and_eq_true, decide_eq_true_eq]
        omega
      have hcond : (decide (u8c1lo (0xf0 + c.toNat / 262144) ≤ 0x80 + (c.toNat / 4096) % 64) &&
          decide ((0x80 + (c.toNat / 4096) % 64 : Nat) ≤ u8c1hi (0xf0 + c.toNat / 262144)) &&
          decide ((0x80 : Nat) ≤ 0x80 + (c.toNat / 64) % 64) &&
          decide ((0x80 + (c.toNat / 64) % 64 : Nat) ≤ 0xbf) &&
          decide ((0x80 : Nat) ≤ 0x80 + c.toNat % 64) &&
          decide ((0x80 + c.toNat % 64 : Nat) ≤ 0xbf)) = true := by
        simp only [Bool.and_eq_true, decide_eq_true_eq, u8c1lo, u8c1hi]
        refine ⟨⟨⟨⟨⟨?_, ?_⟩, by omega⟩, by omega⟩, by omega⟩, by omega⟩
        · split
          · rename_i hb
            simp only [beq_iff_eq] at hb
            omega
          · split
            · rename_i hb1 hb2
              simp only [beq_iff_eq] at hb2
              omega
            · omega
        · split
          · rename_i hb
            simp only [beq_iff_eq] at hb
            omega
          · split
            · rename_i hb1 hb2
              simp only [beq_iff_eq] at hb2
              omega
            · omega
      have harith : (0xf0 + c.toNat / 262144 - 0xf0) * 262144 +
          (0x80 + (c.toNat / 4096) % 64 - 0x80) * 4096 +
          (0x80 + (c.toNat / 64) % 64 - 0x80) * 64 + (0x80 + c.toNat % 64 - 0x80)
          = c.toNat := by omega
      simp only [pctParse,
        hex2_digits (show (0xf0 + c.toNat / 262144 : Nat) < 256 by omega),
        pctHex2_digits (show (0x80 + (c.toNat / 4096) % 64 : Nat) < 256 by omega),
        pctHex2_digits (show (0x80 + (c.toNat / 64) % 64 : Nat) < 256 by omega),
        pctHex2_digits (show (0x80 + c.toNat % 64 : Nat) < 256 by omega),
        hno, if_false, hno2, hno3, hyes4, if_true, hcond, harith, Bool.false_eq_true]
    simp only [hpp]
    rw [Char.ofNat_toNat]
    rw [uriGo_mono f rest.length rest (by omega) le_rfl]
    rfl

/-- Decoding the escape of the UTF-8 bytes of one character recovers that
character. -/
lemma uriGo_esc_char (c : Char) (rest : List Char) (fuel : Nat)
    (hf : (cmapL escChar (byteChars (utf8EncodeChar c))).length + rest.length ≤ fuel) :
    uriGo fuel (cmapL escChar (byteChars (utf8EncodeChar c)) ++ rest) =
      (c :: ·) <$> decodeURIComponentL rest := by
  rcases char_toNat_valid c with h | ⟨hgt, hlt⟩
  · by_cases h1 : c.toNat < 0x80
    · exact uriGo_esc1 c rest fuel h1 hf
    · by_cases h2 : c.toNat < 0x800
      · exact uriGo_esc2 c rest fuel (by omega) h2 hf
      · by_cases h3 : c.toNat < 0x10000
        · exact uriGo_esc3 c rest fuel (by omega) h3 (Or.inl h) hf
        · omega
  · by_cases h3 : c.toNat < 0x10000
    · exact uriGo_esc3 c rest fuel (by omega) h3 (Or.inr hgt) hf
    · exact uriGo_esc4 c rest fuel (by omega) hlt hf

lemma cmapL_append (f : α → List β) (l1 l2 : List α) :
    cmapL f (l1 ++ l2) = cmapL f l1 ++ cmapL f l2 := by
  induction l1 with
  | nil => rfl
  | cons a r ih => simp [cmapL, ih]

lemma uriGo_esc_all : ∀ (l : List Char) (fuel : Nat),
    (cmapL escChar (byteChars (cmapL utf8EncodeChar l))).length ≤ fuel →
    uriGo fuel (cmapL escChar (byteChars (cmapL utf8EncodeChar l))) = .ok l := by
  intro l
  induction l with
  | nil => intro fuel _; cases fuel <;> rfl
  | cons c r ih =>
    intro fuel hf
    have hsplit : cmapL escChar (byteChars (cmapL utf8EncodeChar (c :: r))) =
        cmapL escChar (byteChars (utf8EncodeChar c)) ++
          cmapL escChar (byteChars (cmapL utf8EncodeChar r)) := by
      show cmapL escChar (byteChars (utf8EncodeChar c ++ cmapL utf8EncodeChar r)) = _
      unfold byteChars
      rw [List.map_append, cmapL_append]
    rw [hsplit] at hf ⊢
    rw [List.length_append] at hf
    rw [uriGo_esc_char c _ fuel hf]
    have hrest := ih (cmapL escChar (byteChars (cmapL utf8EncodeChar r))).length le_rfl
    show (c :: ·) <$> uriGo _ (cmapL escChar (byteChars (cmapL utf8EncodeChar r))) = _
    rw [hrest]
    rfl

/-- `decodeURIComponent (escape raw)` recovers `u` when `raw` is the
byte-string view of the UTF-8 encoding of `u` — the purpose of the
double-decode pass in `decodeAndCleanUrl`. -/
lemma decodeURI_escape_utf8 (u : String) :
    decodeURIComponentL (escapeJs (String.mk (byteChars (utf8Encode u)))).data = .ok u.data :=
  uriGo_esc_all u.data _ le_rfl

/-! Part 3: pushing the base64 encoding of a URL through
`decodeAndCleanUrl`. -/

lemma dropWhile_eq_self_of {p : Char → Bool} {l : List Char}
    (h : ∀ c ∈ l, p c = false) : l.dropWhile p = l := by
  cases l with
  | nil => rfl
  | cons c r => simp [List.dropWhile_cons, h c (by simp)]

lemma trimL_eq_self {l : List Char} (h : ∀ c ∈ l, isJsWs c = false) : trimL l = l := by
  unfold trimL
  rw [dropWhile_eq_self_of h]
  rw [dropWhile_eq_self_of (fun c hc => h c (by simpa using hc))]
  simp

lemma takeWhile_eq_self_of {p : Char → Bool} {l : List Char}
    (h : ∀ c ∈ l, p c = true) : l.takeWhile p = l := by
  induction l with
  | nil => rfl
  | cons c r ih =>
    simp only [List.takeWhile_cons, h c (by simp), if_true]
    rw [ih (fun x hx => h x (by simp [hx]))]

lemma b64CharOf_not_jsws (n : Nat) : isJsWs (b64CharOf n) = false := by
  by_cases h : n < 64
  · have hb : ∀ m, m < 64 → isJsWs (b64CharOf m) = false := by decide
    exact hb n h
  · unfold b64CharOf
    rw [List.getD_eq_default]
    · decide
    · have : b64Alphabet.length = 64 := rfl
      omega

lemma b64CharOf_keep (n : Nat) : isB64Keep (b64CharOf n) = true := by
  by_cases h : n < 64
  · have hb : ∀ m, m < 64 → isB64Keep (b64CharOf m) = true := by decide
    exact hb n h
  · unfold b64CharOf
    rw [List.getD_eq_default]
    · decide
    · have : b64Alphabet.length = 64 := rfl
      omega

/-- Every character of a base64 encoding is an alphabet character or `=`. -/
lemma encode_char_cases {bs : List Nat} {ch : Char} (h : ch ∈ base64EncodeBytes bs) :
    (∃ v, ch = b64CharOf v) ∨ ch = '=' := by
  unfold base64EncodeBytes at h
  rcases List.mem_append.mp h with hm | hp
  · obtain ⟨v, _, rfl⟩ := List.mem_map.mp hm
    exact Or.inl ⟨v, rfl⟩
  · exact Or.inr (b64PadEnc_mem hp)

lemma encode_not_jsws {bs : List Nat} {ch : Char} (h : ch ∈ base64EncodeBytes bs) :
    isJsWs ch = false := by
  rcases encode_char_cases h with ⟨v, rfl⟩ | rfl
  · exact b64CharOf_not_jsws v
  · decide

lemma encode_keep {bs : List Nat} {ch : Char} (h : ch ∈ base64EncodeBytes bs) :
    isB64Keep ch = true := by
  rcases encode_char_cases h with ⟨v, rfl⟩ | rfl
  · exact b64CharOf_keep v
  · decide

lemma stripTrailingNonB64_encode (bs : List Nat) :
    stripTrailingNonB64 (base64EncodeBytes bs) = base64EncodeBytes bs := by
  unfold stripTrailingNonB64
  rw [dropWhile_eq_self_of (fun c hc => by
    have : isB64Keep c = true := encode_keep (by simpa using hc)
    simp [this])]
  simp

lemma encode_len_mod (bs : List Nat) : (base64EncodeBytes bs).length % 4 = 0 := by
  unfold base64EncodeBytes
  rw [List.length_append, List.length_map]
  exact enc_total_len_mod bs

lemma padB64_encode (bs : List Nat) : padB64 (base64EncodeBytes bs) = base64EncodeBytes bs := by
  unfold padB64
  rw [encode_len_mod bs]
  simp

lemma b64ValsEnc_ne_nil {bs : List Nat} (h : bs ≠ []) : b64ValsEnc bs ≠ [] := by
  rcases bs with _ | ⟨a, t⟩
  · exact absurd rfl h
  · rcases t with _ | ⟨b, t2⟩
    · simp [b64ValsEnc]
    · rcases t2 with _ | ⟨c, t3⟩
      · simp [b64ValsEnc]
      · simp [b64ValsEnc]

lemma encode_ne_nil {bs : List Nat} (h : bs ≠ []) : base64EncodeBytes bs ≠ [] := by
  unfold base64EncodeBytes
  intro hcon
  rcases List.append_eq_nil.mp hcon with ⟨h1, _⟩
  exact b64ValsEnc_ne_nil h (List.map_eq_nil_iff.mp h1)

/-- `customBase64Decode` inverts a standard base64 encoding in one step —
the clean-input strip, padding and `atob` all act trivially. -/
lemma customBase64Decode_encode (bs : List Nat) (hlt : ∀ b ∈ bs, b < 256) (hne : bs ≠ []) :
    customBase64Decode (String.mk (base64EncodeBytes bs)) = String.mk (byteChars bs) := by
  unfold customBase64Decode cbdCore
  have hd : (String.mk (base64EncodeBytes bs)).data = base64EncodeBytes bs := rfl
  rw [hd]
  have hpos : 0 < (base64EncodeBytes bs).length :=
    List.length_pos.mpr (encode_ne_nil hne)
  rcases hfl : (base64EncodeBytes bs).length with _ | f
  · omega
  · simp only [cbdGo]
    rw [if_neg (encode_ne_nil hne)]
    rw [stripTrailingNonB64_encode bs, padB64_encode bs, atobL_encode bs hlt]

lemma utf8EncodeChar_ne_nil (c : Char) : utf8EncodeChar c ≠ [] := by
  unfold utf8EncodeChar
  split
  · simp
  · split
    · simp
    · split
      · simp
      · simp

lemma utf8Encode_lt (u : String) : ∀ b ∈ utf8Encode u, b < 256 := by
  have : ∀ l : List Char, ∀ b ∈ cmapL utf8EncodeChar l, b < 256 := by
    intro l
    induction l with
    | nil => intro b hb; simp [cmapL] at hb
    | cons c r ih =>
      intro b hb
      simp only [cmapL] at hb
      rcases List.mem_append.mp hb with h1 | h2
      · have hval := char_toNat_valid c
        unfold utf8EncodeChar at h1
        split at h1
        · simp at h1
          omega
        · split at h1
          · rename_i hh1 hh2
            simp at h1
            rcases h1 with rfl | rfl <;> omega
          · split at h1
            · rename_i hh1 hh2 hh3
              simp at h1
              rcases h1 with rfl | rfl | rfl <;> omega
            · rename_i hh1 hh2 hh3
              simp at h1
              rcases h1 with rfl | rfl | rfl | rfl <;> rcases hval with hv | ⟨hv1, hv2⟩ <;> omega
      · exact ih b h2
  exact this u.data

/-- A lowercase-literal pattern matches case-insensitively at its own
occurrence. -/
lemma ciPfx_of_append {pat : List Char} (h : ∀ p ∈ pat, lowerC p = p) (r : List Char) :
    ciPfx pat (pat ++ r) = some r := by
  induction pat with
  | nil => rfl
  | cons p ps ih =>
    simp only [List.cons_append, ciPfx, h p (by simp), beq_self_eq_true, if_true]
    exact ih (fun q hq => h q (by simp [hq]))

lemma pfxAt_iff_append {pat l : List Char} :
    pfxAt pat l = true ↔ ∃ r, l = pat ++ r := by
  constructor
  · intro h
    induction pat generalizing l with
    | nil => exact ⟨l, rfl⟩
    | cons p ps ih =>
      rcases l with _ | ⟨c, cs⟩
      · simp [pfxAt] at h
      · simp only [pfxAt, Bool.and_eq_true, beq_iff_eq] at h
        obtain ⟨rfl, h2⟩ := h
        obtain ⟨r, rfl⟩ := ih h2
        exact ⟨r, rfl⟩
  · rintro ⟨r, rfl⟩
    induction pat with
    | nil => rfl
    | cons p ps ih => simpa [pfxAt] using ih

lemma endsWithL_iff {pat l : List Char} :
    endsWithL pat l = true ↔ ∃ p, l = p ++ pat := by
  unfold endsWithL
  rw [pfxAt_iff_append]
  constructor
  · rintro ⟨r, hr⟩
    refine ⟨r.reverse, ?_⟩
    have := congrArg List.reverse hr
    simpa using this
  · rintro ⟨p, rfl⟩
    exact ⟨p.reverse, by simp⟩

lemma findExt_of_ext {ext : List Char}
    (hext : ext = ".pdf".data ∨ ext = ".txt".data ∨ ext = ".csv".data) :
    ∀ (mid : List Char), (∀ c ∈ mid, isLineTerm c = false) → findExt (mid ++ ext) = true := by
  intro mid
  induction mid with
  | nil =>
    intro _
    rcases hext with rfl | rfl | rfl <;> decide
  | cons c r ih =>
    intro hnl
    simp only [List.cons_append, findExt, List.append_eq]
    rw [ih (fun x hx => hnl x (by simp [hx])), hnl c (by simp)]
    simp

/-- Any string that starts with a (lowercase) protocol, ends with a
recognized (lowercase) extension and contains no line terminator is matched
whole by the URL regex. -/
lemma scanUrl_full (l : List Char)
    (hproto : pfxAt protoHttp l = true ∨ pfxAt protoHttps l = true)
    (hext : ∃ pre ext, l = pre ++ ext ∧
      (ext = ".pdf".data ∨ ext = ".txt".data ∨ ext = ".csv".data))
    (hnl : ∀ c ∈ l, isLineTerm c = false) :
    scanUrl l = some l := by
  obtain ⟨pre, ext, hl, hext3⟩ := hext
  have hextlen : ext.length = 4 := by
    rcases hext3 with rfl | rfl | rfl <;> rfl
  -- the protocol and a rest
  have hsplit : ∃ proto rest, (proto = protoHttp ∨ proto = protoHttps) ∧
      l = proto ++ rest ∧ matchProtoAt l = some rest := by
    rcases hproto with hp | hp
    · obtain ⟨rest, hr⟩ := pfxAt_iff_append.mp hp
      refine ⟨protoHttp, rest, Or.inl rfl, hr, ?_⟩
      unfold matchProtoAt
      have hs : ciPfx protoHttps l = none := by
        rw [hr]
        have hshape : protoHttp ++ rest = 'h' :: 't' :: 't' :: 'p' :: ':' :: '/' :: '/' :: rest := rfl
        rw [hshape]
        simp [ciPfx, protoHttps, lowerC]
      rw [hs, hr, ciPfx_of_append (by decide) rest]
    · obtain ⟨rest, hr⟩ := pfxAt_iff_append.mp hp
      refine ⟨protoHttps, rest, Or.inr rfl, hr, ?_⟩
      unfold matchProtoAt
      rw [hr, ciPfx_of_append (by decide) rest]
  obtain ⟨proto, rest, hpr, hlp, hmp⟩ := hsplit
  have hprotolen : proto.length ≤ 8 := by
    rcases hpr with rfl | rfl <;> decide
  have hprotolen7 : 7 ≤ proto.length := by
    rcases hpr with rfl | rfl <;> decide
  -- the extension lies within rest
  have hrest : ∃ mid, rest = mid ++ ext := by
    by_cases hple : proto.length ≤ pre.length
    · refine ⟨pre.drop proto.length, ?_⟩
      have h1 : pre.take proto.length = proto := by
        have := congrArg (List.take proto.length) (hlp.symm.trans hl)
        rw [List.take_append_of_le_length hple] at this
        simpa [List.take_left'] using this.symm
      have hpre : pre = proto ++ pre.drop proto.length := by
        conv_lhs => rw [← List.take_append_drop proto.length pre, h1]
      have : proto ++ rest = proto ++ (pre.drop proto.length ++ ext) := by
        rw [← List.append_assoc, ← hpre, ← hl, ← hlp]
      exact List.append_cancel_left this
    · exfalso
      have hdot : l[pre.length]? = some '.' := by
        rw [hl]
        rw [List.getElem?_append_right (by omega)]
        have hz : pre.length - pre.length = 0 := by omega
        rw [hz]
        rcases hext3 with rfl | rfl | rfl <;> rfl
      have hdot2 : l[pre.length]? = proto[pre.length]? := by
        rw [hlp]
        rw [List.getElem?_append_left (by omega)]
      have hnodot : ∀ k, k < proto.length → ¬ proto[k]? = some '.' := by
        rcases hpr with rfl | rfl <;> decide
      exact hnodot pre.length (by omega) (hdot2 ▸ hdot)
  obtain ⟨mid, hm⟩ := hrest
  -- the attempt at position 0 succeeds
  have hnlrest : ∀ c ∈ rest, isLineTerm c = false := by
    intro c hc
    exact hnl c (by rw [hlp]; simp [hc])
  have hfind : findExt rest = true := by
    rw [hm]
    exact findExt_of_ext hext3 mid (fun c hc => hnlrest c (by rw [hm]; simp [hc]))
  have hatt : attemptAt l = true := by
    unfold attemptAt
    rw [hmp]
    exact hfind
  have htake : takeLine l = l :=
    takeWhile_eq_self_of (fun c hc => by simp [hnl c hc])
  cases l with
  | nil =>
    have := congrArg List.length hlp
    simp at this
    omega
  | cons c cs =>
    simp only [scanUrl, hatt, if_true, htake]

/-- C4 counterexample: the URL "https://x.pdf.pdf" (valid UTF-8, starts
with https://, ends in .pdf) is NOT recovered by encode-then-resolve — the
truncation step cuts at the first ".pdf" occurrence, yielding
"https://x.pdf". -/
theorem c4_counterexample :
    (decodeAndCleanUrl (String.mk (base64EncodeBytes (utf8Encode "https://x.pdf.pdf")))).cleaned
      = some "https://x.pdf" ∧ ("https://x.pdf" : String) ≠ "https://x.pdf.pdf" := by
  constructor
  · decide
  · decide

/-- C4 as amended: for every URL string `u` (every Lean `String` is valid
UTF-8) that starts with `http://` or `https://`, ends in `.pdf`, `.txt` or
`.csv`, contains no line terminator, and in which ".pdf" occurs
(case-insensitively) only as the final four characters if at all,
base64-encoding then resolving returns `cleaned = u`.  The line-terminator
and first-".pdf" conditions are forced by the counterexample: an earlier
".pdf" occurrence truncates the result, and the regex `.` cannot cross a
line terminator. -/
theorem c4_amended (u : String)
    (hproto : pfxAt protoHttp u.data = true ∨ pfxAt protoHttps u.data = true)
    (hext : endsWithL ".pdf".data u.data = true ∨ endsWithL ".txt".data u.data = true ∨
            endsWithL ".csv".data u.data = true)
    (hnl : ∀ c ∈ u.data, isLineTerm c = false)
    (hpdf : (firstIdxOf ".pdf".data (asciiLower u.data)).all
              (fun i => i + 4 == u.data.length) = true) :
    (decodeAndCleanUrl (String.mk (base64EncodeBytes (utf8Encode u)))).cleaned = some u := by
  have hune : u.data ≠ [] := by
    rcases hproto with hp | hp <;> obtain ⟨r, hr⟩ := pfxAt_iff_append.mp hp <;>
      rw [hr] <;> simp [protoHttp, protoHttps]
  have hbytes_lt := utf8Encode_lt u
  have hbne : utf8Encode u ≠ [] := by
    rcases hu : u.data with _ | ⟨c, r⟩
    · exact absurd hu hune
    · show cmapL utf8EncodeChar u.data ≠ []
      rw [hu]
      simp only [cmapL]
      intro hcon
      rcases List.append_eq_nil.mp hcon with ⟨h1, _⟩
      exact utf8EncodeChar_ne_nil c h1
  have hencne : base64EncodeBytes (utf8Encode u) ≠ [] := encode_ne_nil hbne
  have hb64ne : String.mk (base64EncodeBytes (utf8Encode u)) ≠ "" := by
    intro hcon
    exact hencne (congrArg String.data hcon)
  have hnotspecial : String.mk (base64EncodeBytes (utf8Encode u)) ≠ specialB64 := by
    intro hcon
    have hlen := congrArg (fun s => s.data.length % 4) hcon
    simp only at hlen
    rw [encode_len_mod] at hlen
    have hone : specialB64.data.length % 4 = 1 := by decide
    omega
  unfold decodeAndCleanUrl
  rw [if_neg hb64ne, if_neg hnotspecial]
  have htrim : trimJS (String.mk (base64EncodeBytes (utf8Encode u)))
      = String.mk (base64EncodeBytes (utf8Encode u)) := by
    show String.mk (trimL (base64EncodeBytes (utf8Encode u))) = _
    rw [trimL_eq_self (fun c hc => encode_not_jsws hc)]
  have hdecode : customBase64Decode (trimJS (String.mk (base64EncodeBytes (utf8Encode u))))
      = String.mk (byteChars (utf8Encode u)) := by
    rw [htrim]
    exact customBase64Decode_encode _ hbytes_lt hbne
  have hhttp : occursIn "http".data (String.mk (byteChars (utf8Encode u))).data = true := by
    have hhd : ∃ r, u.data = 'h' :: 't' :: 't' :: 'p' :: r := by
      rcases hproto with hp | hp <;> obtain ⟨r, hr⟩ := pfxAt_iff_append.mp hp
      · exact ⟨':' :: '/' :: '/' :: r, hr⟩
      · exact ⟨'s' :: ':' :: '/' :: '/' :: r, hr⟩
    obtain ⟨r, hr⟩ := hhd
    show occursIn "http".data (byteChars (cmapL utf8EncodeChar u.data)) = true
    rw [hr]
    have henc4 : cmapL utf8EncodeChar ('h' :: 't' :: 't' :: 'p' :: r)
        = 104 :: 116 :: 116 :: 112 :: cmapL utf8EncodeChar r := rfl
    rw [henc4]
    show occursIn "http".data
      ('h' :: 't' :: 't' :: 'p' :: byteChars (cmapL utf8EncodeChar r)) = true
    simp [occursIn, pfxAt]
  simp only [hdecode, hhttp, Bool.not_true, Bool.false_and, Bool.false_eq_true, if_false]
  have hdec2 : decodeURIComponentL (escapeJs (String.mk (byteChars (utf8Encode u)))).data
      = .ok u.data := decodeURI_escape_utf8 u
  simp only [hdec2]
  have hscan : scanUrl u.data = some u.data := by
    apply scanUrl_full
    · exact hproto
    · rcases hext with he | he | he <;> obtain ⟨p, hp⟩ := endsWithL_iff.mp he
      · exact ⟨p, ".pdf".data, hp, Or.inl rfl⟩
      · exact ⟨p, ".txt".data, hp, Or.inr (Or.inl rfl)⟩
      · exact ⟨p, ".csv".data, hp, Or.inr (Or.inr rfl)⟩
    · exact hnl
  simp only [hscan]
  rcases hidx : firstIdxOf ".pdf".data (jsToLower u.data) with _ | i
  · simp only [hidx]
  · simp only [hidx]
    obtain ⟨j, hj, hle⟩ := first_ascii_le_js u.data i hidx
    rw [hj] at hpdf
    simp only [Option.all, beq_iff_eq] at hpdf
    have htake : u.data.take (i + 4) = u.data :=
      List.take_of_length_le (by omega)
    rw [htake]

/-- C4 witness: the round trip at "http://a.pdf". -/
theorem c4_amended_witness :
    (pfxAt protoHttp "http://a.pdf".data = true ∨
     pfxAt protoHttps "http://a.pdf".data = true) ∧
    (decodeAndCleanUrl (String.mk (base64EncodeBytes (utf8Encode "http://a.pdf")))).cleaned
      = some "http://a.pdf" :=
  ⟨Or.inl (by decide),
   c4_amended "http://a.pdf" (Or.inl (by decide))
     (Or.inl (by decide)) (by decide) (by decide)⟩

/-- C1 witness: the resolution of the base64 encoding of "http://a.pdf". -/
theorem c1_amended_witness :
    (decodeAndCleanUrl (String.mk (base64EncodeBytes (utf8Encode "http://a.pdf")))).cleaned
      = some "http://a.pdf" ∧
    ((ciPfx protoHttps "http://a.pdf".data).isSome ||
     (ciPfx protoHttp "http://a.pdf".data).isSome) = true ∧
    (∀ i, Char.ofNat 0x130 ∉ "http://a.pdf".data →
      firstIdxOf ".pdf".data (jsToLower "http://a.pdf".data) = some i →
      "http://a.pdf".data.length = i + 4) := by
  refine ⟨by decide, ?_⟩
  have := c1_amended (String.mk (base64EncodeBytes (utf8Encode "http://a.pdf")))
    "http://a.pdf" (by decide)
  exact ⟨this.1, this.2⟩

end UrlDecoder
